import Mathlib

/-!
# Verification of the AMF3 codec (`node_amf_cc`)

A shallow embedding of the AMF3 encoder/decoder from
`src/node_modules/node_amf_cc/src/{read_buffer,write_buffer,serializer,deserializer}.cc`.

Modelling conventions:

* Machine bytes are `Nat` values; buffers are `List Nat`.  Truncating
  conversions (`uint8_t`, `unsigned char`) are written as `% 256` / `% 128`
  at the places where the C++ performs the conversion.
* Pointers `start_`, `curr_`, `end_` of `ReadBuffer::Region` become `Int`
  offsets into the byte list.  `Region::read` advances `curr_` *before*
  checking the bound, exactly as in the source (`curr_ += len; return
  curr_ <= end_;`), so a failed read leaves the cursor past the end.
* `Nan::ThrowError` only flags a pending exception; the C++ keeps running
  after it.  The model mirrors that: an error is recorded in the state and
  the surrounding function continues exactly as the source does.  Places
  where the source would then perform an out-of-bounds `std::vector` access
  (a reference-table lookup after a failed range check) are modelled as
  returning a default value, with the error already recorded.
* IEEE-754 doubles are represented by their 8-byte big-endian
  representation (`F64 := List Nat`, most significant byte first).  The
  memory image of a double on a little-endian host is the reversal of this
  list; on a big-endian host it is the list itself.  All byte-swapping in
  the source is translated with respect to this convention.
* Both the serializer and the deserializer are given a fuel parameter so
  that all definitions are executable total functions; the C++ recursion
  can genuinely diverge on crafted inputs (an object whose body
  back-references itself re-parses forever), so fuel is the faithful way
  to make the model total.  Running out of fuel is a distinguished
  outcome that no theorem below ever relies on.
-/

namespace AMFCC

/-- The canonical serialized NaN byte sequence (`ENCODED_NAN` in
`read_buffer.cc`, `SERIALIZED_NaN` in `serializer.cc`). -/
def encodedNaN : List Nat := [0, 0, 0, 0, 0, 0, 0xf8, 0x7f]

/-! ## ReadBuffer::Region (read_buffer.cc) -/

/-- `ReadBuffer::Region`: a window into the byte buffer.  `start`, `curr`
and `endPos` are the pointer offsets `start_`, `curr_`, `end_`;
`bigEndian` is the host-endianness flag stored in the region. -/
structure Region where
  bytes : List Nat
  start : Int
  curr : Int
  endPos : Int
  bigEndian : Bool
  deriving Repr, DecidableEq

namespace Region

/-- `Region::consumed`. -/
def consumed (r : Region) : Int := r.curr - r.start

/-- `Region::remainingLength`. -/
def remainingLength (r : Region) : Int := r.endPos - r.curr

/-- `Region::copy(len)`: duplicate the region; a non-negative `len`
shrinks the copy to `len` bytes from the current cursor. -/
def copy (r : Region) (len : Int) : Region :=
  if 0 ≤ len then { r with endPos := r.curr + len } else r

/-- The bytes a data pointer handed out at offset `curr` can deliver
(the `len` bytes starting at the cursor, as far as the underlying
buffer actually reaches). -/
def slice (r : Region) (len : Int) : List Nat :=
  (r.bytes.drop r.curr.toNat).take len.toNat

/-- `Region::read`: hand out the data pointer, advance the cursor, and
report whether the advanced cursor is still within the region.  Note the
cursor advances even when the read fails. -/
def read (r : Region) (len : Int) : Region × Bool × List Nat :=
  ({ r with curr := r.curr + len }, decide (r.curr + len ≤ r.endPos), r.slice len)

/-- `Region::readUInt8`.  The output is written only on success, hence
`Option`. -/
def readUInt8 (r : Region) : Region × Option Nat :=
  let (r1, ok, d) := r.read 1
  if ok then (r1, some (d.headD 0)) else (r1, none)

/-- `Region::readUInt16` (`_decode_ushort`): big-endian assembly via the
union, with the byte order flipped first on a little-endian host. -/
def readUInt16 (r : Region) : Region × Option Nat :=
  let (r1, ok, d) := r.read 2
  if ok then
    let v :=
      if r.bigEndian then (d.getD 0 0) * 256 + d.getD 1 0
      else d.getD 1 0 + (d.getD 0 0) * 256
    (r1, some v)
  else (r1, none)

/-- `Region::readUInt32` (`_decode_ulong`). -/
def readUInt32 (r : Region) : Region × Option Nat :=
  let (r1, ok, d) := r.read 4
  if ok then
    let v :=
      if r.bigEndian then
        (d.getD 0 0) * 2 ^ 24 + (d.getD 1 0) * 2 ^ 16 + (d.getD 2 0) * 256 + d.getD 3 0
      else
        d.getD 3 0 + (d.getD 2 0) * 256 + (d.getD 1 0) * 2 ^ 16 + (d.getD 0 0) * 2 ^ 24
    (r1, some v)
  else (r1, none)

/-- The big-endian representation of the quiet NaN produced by
`std::numeric_limits<double>::quiet_NaN()`. -/
def quietNaN : List Nat := [0x7f, 0xf8, 0, 0, 0, 0, 0, 0]

/-- `Region::readDouble` (`_decode_double`): 8 wire bytes; the canonical
NaN sequence is special-cased, otherwise the bytes are placed into the
double's memory image (reversed on a little-endian host).  The result is
the big-endian representation of the double read. -/
def readDouble (r : Region) : Region × Option (List Nat) :=
  let (r1, ok, d) := r.read 8
  if ok then
    if d = encodedNaN then (r1, some quietNaN)
    else
      -- `d.c_val[i] := data[i]` on a big-endian host, `data[7-i]` on a
      -- little-endian one; converting the memory image back to the
      -- big-endian representation undoes the little-endian reversal.
      let memory := if r.bigEndian then d else d.reverse
      let v := if r.bigEndian then memory else memory.reverse
      (r1, some v)
  else (r1, none)

/-- `Region::readInt29` (`_decode_int_AMF3`), with the loop
`while ((byte & 0x80) && (byte_cnt < 3))` unrolled (it runs at most three
times).  The default build is modelled: `AMFLIB_COMPAT` is *not* defined,
so the final sign adjustment is performed. -/
def readInt29 (r : Region) : Region × Option Int :=
  let signAdjust : Nat → Int := fun result =>
    if result &&& 0x10000000 ≠ 0 then (result : Int) - 0x20000000 else (result : Int)
  let (r1, ok1, d1) := r.read 1
  if !ok1 then (r1, none) else
  let b1 := d1.headD 0
  if b1 &&& 0x80 ≠ 0 then
    -- byte_cnt 0 → 1
    let res1 := b1 &&& 0x7F
    let (r2, ok2, d2) := r1.read 1
    if !ok2 then (r2, none) else
    let b2 := d2.headD 0
    if b2 &&& 0x80 ≠ 0 then
      -- byte_cnt 1 → 2
      let res2 := res1 <<< 7 ||| (b2 &&& 0x7F)
      let (r3, ok3, d3) := r2.read 1
      if !ok3 then (r3, none) else
      let b3 := d3.headD 0
      if b3 &&& 0x80 ≠ 0 then
        -- byte_cnt 2 → 3; loop exits because byte_cnt = 3
        let res3 := res2 <<< 7 ||| (b3 &&& 0x7F)
        let (r4, ok4, d4) := r3.read 1
        if !ok4 then (r4, none) else
        let b4 := d4.headD 0
        (r4, some (signAdjust (res3 <<< 8 ||| (b4 &&& 0xFF))))
      else
        (r3, some (signAdjust (res2 <<< 7 ||| (b3 &&& 0x7F))))
    else
      (r2, some (signAdjust (res1 <<< 7 ||| (b2 &&& 0x7F))))
  else
    (r1, some (signAdjust (0 <<< 7 ||| (b1 &&& 0x7F))))

end Region

/-- `ReadBuffer::ReadBuffer`: the buffer holds `payload->Length() + 1`
bytes — the payload's code units truncated to their low byte, plus the
NUL terminator `v8::String::Write` appends — and the region spans the
whole vector including that trailing NUL. -/
def mkReadBuffer (payload : List Nat) (bigEndian : Bool) : Region :=
  let bytes := payload.map (· % 256) ++ [0]
  { bytes := bytes, start := 0, curr := 0, endPos := (payload.length : Int) + 1,
    bigEndian := bigEndian }

/-! ## IEEE-754 binary64 values

A double is represented by its 8-byte big-endian representation (most
significant byte first).  This is endian-neutral: the memory image on a
little-endian host is the reversal of this list. -/

namespace F64

/-- Byte `i` of a representation. -/
def byte (b : List Nat) (i : Nat) : Nat := b.getD i 0

/-- The 11 exponent bits. -/
def expBits (b : List Nat) : Nat := byte b 0 % 128 * 16 + byte b 1 / 16

/-- The 52 mantissa bits. -/
def mantBits (b : List Nat) : Nat :=
  byte b 1 % 16 * 2 ^ 48 + byte b 2 * 2 ^ 40 + byte b 3 * 2 ^ 32 + byte b 4 * 2 ^ 24 +
    byte b 5 * 2 ^ 16 + byte b 6 * 2 ^ 8 + byte b 7

/-- The sign bit. -/
def signBit (b : List Nat) : Nat := byte b 0 / 128

/-- IEEE NaN: exponent all ones, non-zero mantissa (the C library's
`isnan`). -/
def isNaN (b : List Nat) : Bool := decide (expBits b = 2047 ∧ mantBits b ≠ 0)

/-- The exact integer value of a double whose value is an integer, and
`none` for NaN, infinities and non-integral values.  This captures the
combined test `val = value->ToInteger(); val == value->NumberValue()` of
`Serializer::writeNumber`, together with the integer obtained. -/
def asInt (b : List Nat) : Option Int :=
  if expBits b = 2047 then none
  else
    let m := mantBits b + if expBits b = 0 then 0 else 2 ^ 52
    let p : Int := (max (expBits b) 1 : Int) - 1075
    let mag : Option Nat :=
      if 0 ≤ p then some (m * 2 ^ p.toNat)
      else if 2 ^ (-p).toNat ∣ m then some (m / 2 ^ (-p).toNat) else none
    mag.map fun n => if signBit b = 1 then -(n : Int) else (n : Int)

/-- Base-2 logarithm with an explicit recursion bound (64 steps cover
every value the codec handles); a structurally recursive stand-in for
`Nat.log2`. -/
def log2b : Nat → Nat → Nat
  | 0, _ => 0
  | f + 1, n => if 2 ≤ n then log2b f (n / 2) + 1 else 0

/-- The (exact) double representation of an integer of magnitude below
`2^53`; used for the implicit `int → double` conversions performed by
`value->NumberValue()` on an integer-valued input. -/
def ofInt (i : Int) : List Nat :=
  if i = 0 then [0, 0, 0, 0, 0, 0, 0, 0]
  else
    let n := i.natAbs
    let e := log2b 64 n
    let mant := n * 2 ^ (52 - e) - 2 ^ 52
    let exp := e + 1023
    let s := if i < 0 then 1 else 0
    [s * 128 + exp / 16, exp % 16 * 16 + mant / 2 ^ 48,
     mant / 2 ^ 40 % 256, mant / 2 ^ 32 % 256, mant / 2 ^ 24 % 256,
     mant / 2 ^ 16 % 256, mant / 2 ^ 8 % 256, mant % 256]

end F64

/-! ## The value tree

The host (v8) value trees handled by the codec, per the data model of the
spec: `int i` models a JS number holding the exact integer `i`; `dbl b`
a JS number given by its IEEE-754 big-endian bytes; strings are UTF-8
byte lists; `obj` carries the v8 object identity (`GetIdentityHash`) and
the own properties in insertion order; `date` carries the `getTime`
milliseconds value as a double. -/

inductive Value where
  | undef : Value
  | null : Value
  | bool : Bool → Value
  | int : Int → Value
  | dbl : List Nat → Value
  | str : List Nat → Value
  | arr : List Value → Value
  | obj : Nat → List (List Nat × Value) → Value
  | date : List Nat → Value
  deriving Repr

/-! ## Serializer (serializer.cc) -/

/-- Serializer state: the output buffer (`WriteBuffer`), the per-call
object-reference table `objRefs_` (insertion-ordered identity hashes:
the index of an id in the list is its assigned reference index), the
pending-exception flag, a fuel-exhaustion marker (a model artefact, see
module comment), and the host-endianness flag `Serializer::bigEndian`. -/
structure SState where
  buf : List Nat
  objRefs : List Nat
  err : Bool
  fuelOk : Bool
  bigEndian : Bool
  deriving Repr, DecidableEq

/-- A fresh serializer (`Serializer::clear`). -/
def initS (be : Bool) : SState :=
  { buf := [], objRefs := [], err := false, fuelOk := true, bigEndian := be }

/-- `Serializer::writeU8` / `WriteBuffer::write`; the argument is
converted to `unsigned char`. -/
def writeU8 (n : Nat) (s : SState) : SState := { s with buf := s.buf ++ [n % 256] }

/-- Append bytes one `writeU8` at a time. -/
def writeBytes (bs : List Nat) (s : SState) : SState :=
  { s with buf := s.buf ++ bs.map (· % 256) }

/-- The loop `while (n >= 0x80) bytes.push_back(0x80 | (n >>= 7 & 0x7F));`
of `Serializer::writeU29`.  By C++ precedence the byte pushed is
`0x80 | (n >> 7)` truncated to `unsigned char`, i.e. `128 + (n >> 7) % 128`.
Ten fuel steps always suffice: the value is an `int64_t`, and each
iteration divides it by `2^7`. -/
def u29Loop : Nat → Nat → List Nat
  | 0, _ => []
  | f + 1, n =>
    if 0x80 ≤ n then (128 + n / 128 % 128) :: u29Loop f (n / 128)
    else []

/-- The byte list accumulated by `Serializer::writeU29` (in push order the
low byte comes first; the emitted order is the reversal).  The `n < 0`
case still pushes `n & 0x7F` (the pending `RangeError` does not stop
execution); in two's complement `n & 0x7F = n.emod 128`, and the loop is
not entered. -/
def writeU29bytes (n : Int) : List Nat :=
  if n < 0x200000 then
    ((n.emod 128).toNat :: u29Loop 10 n.toNat).reverse
  else
    ((n.toNat % 256) :: (128 + n.toNat / 256 % 128) :: u29Loop 10 (n.toNat / 256)).reverse

/-- `Serializer::writeU29`: flag a `RangeError` for negative input (the
source keeps running), optionally emit the Integer marker, then the
accumulated bytes most-significant first. -/
def writeU29 (n : Int) (marker : Bool) (s : SState) : SState :=
  let s1 := { s with err := s.err || decide (n < 0) }
  let s2 := if marker then writeU8 4 s1 else s1
  writeBytes (writeU29bytes n) s2

/-- `Serializer::writeUTF8`: optional String marker, U29 flag
`(len << 1) | 1`, then the UTF-8 bytes. -/
def writeUTF8 (t : List Nat) (marker : Bool) (s : SState) : SState :=
  let s1 := if marker then writeU8 6 s else s
  let s2 := writeU29 (2 * (t.length : Int) + 1) false s1
  writeBytes t s2

/-- `Serializer::writeDouble`: optional Double marker; NaN values emit the
canonical `SERIALIZED_NaN` bytes; otherwise the double's memory image is
emitted front-to-back on a big-endian host — note the loop
`for (int i = 0; i < 7; ++i)` emits only seven bytes — and back-to-front
on a little-endian host (eight bytes, big-endian wire order). -/
def writeDouble (b : List Nat) (marker : Bool) (s : SState) : SState :=
  let s1 := if marker then writeU8 5 s else s
  if F64.isNaN b then writeBytes encodedNaN s1
  else
    let memory := if s.bigEndian then b else b.reverse
    if s.bigEndian then writeBytes (memory.take 7) s1
    else writeBytes memory.reverse s1

/-- `Serializer::writeNumber`: an integral value in `[0, 0x200000)` is
written as a U29 (with the Integer marker when requested); everything
else is written as a double.  `writeNumber` is reached only for numbers;
the remaining constructors are never passed to it. -/
def writeNumber (v : Value) (marker : Bool) (s : SState) : SState :=
  match v with
  | .int i =>
    if 0 ≤ i ∧ i < 0x200000 then writeU29 i marker s
    else writeDouble (F64.ofInt i) marker s
  | .dbl b =>
    match F64.asInt b with
    | some val =>
      if 0 ≤ val ∧ val < 0x200000 then writeU29 val marker s
      else writeDouble b marker s
    | none => writeDouble b marker s
  | _ => s

/-- The property name `"type"` consulted by `Serializer::writeObject`. -/
def typeKey : List Nat := [0x74, 0x79, 0x70, 0x65]

/-- v8 `ToString`, to the extent the codec can observe it: it is applied
to the value of a `"type"` property to produce an object's class name.
String values convert to themselves; the primitive spellings are fixed;
the conversions for numbers, arrays, objects and dates are not consulted
by any theorem below and are represented by their v8 shapes where those
are fixed (`"[object Object]"`) and by a placeholder otherwise. -/
def jsToString : Value → List Nat
  | .str t => t
  | .undef => [0x75, 0x6e, 0x64, 0x65, 0x66, 0x69, 0x6e, 0x65, 0x64]
  | .null => [0x6e, 0x75, 0x6c, 0x6c]
  | .bool true => [0x74, 0x72, 0x75, 0x65]
  | .bool false => [0x66, 0x61, 0x6c, 0x73, 0x65]
  | .obj _ _ =>
    [0x5b, 0x6f, 0x62, 0x6a, 0x65, 0x63, 0x74, 0x20,
     0x4f, 0x62, 0x6a, 0x65, 0x63, 0x74, 0x5d]
  | _ => []

/-- The class name emitted by `Serializer::writeObject`: the stringified
`"type"` property when the object has one, `"Object"` otherwise. -/
def classNameOf (props : List (List Nat × Value)) : List Nat :=
  match props.lookup typeKey with
  | some v => jsToString v
  | none => [0x4f, 0x62, 0x6a, 0x65, 0x63, 0x74]

/-- `Serializer::writeDate`: Date marker, inline U29 tag `1`, then the
`getTime()` milliseconds as a double (no Double marker). -/
def writeDate (ms : List Nat) (s : SState) : SState :=
  writeDouble ms false (writeU29 1 false (writeU8 8 s))

/-- The pending recursive activations of the serializer.  The mutually
recursive functions of `serializer.cc` are modelled as one fueled
interpreter over these operation codes (one code per source function) so
that the definition is a single structural recursion; each wrapper below
carries the source function's name. -/
inductive SOp where
  | value : Value → SOp
  | array : List Value → SOp
  | listLoop : List Value → SOp
  | object : Nat → List (List Nat × Value) → SOp
  | propsLoop : List (List Nat × Value) → SOp
  deriving Repr

/-- The serializer's recursive functions, one fuel step per call.

* `.value v` is `Serializer::writeValue`: dispatch on the value's type.
* `.array xs` is `Serializer::writeArray`: Array marker, U29 flag
  `(len << 1) | 1`, empty associative portion, then the elements
  ("NOT supporting object references in serialization" — arrays are
  never looked up in `objRefs_`).
* `.listLoop xs` is `writeArray`'s element loop.
* `.object id props` is `Serializer::writeObject`: Object marker; a
  back-reference `U29 (index << 1)` when the identity is already in
  `objRefs_`; otherwise the identity is assigned the next index and the
  body is emitted — U29 `11` (dynamic, no sealed traits, not
  externalizable), the class name, the `(name, value)` pairs, and the
  empty-string terminator.
* `.propsLoop ps` is `writeObject`'s property loop. -/
def serRun : Nat → SOp → SState → SState
  | 0, _, s => { s with fuelOk := false }
  | f + 1, op, s =>
    match op with
    | .value v =>
      match v with
      | .undef => writeU8 0 s
      | .null => writeU8 1 s
      | .str t => writeUTF8 t true s
      | .int i => writeNumber (.int i) true s
      | .dbl b => writeNumber (.dbl b) true s
      | .bool b => writeU8 (if b then 3 else 2) s
      | .arr xs => serRun f (.array xs) s
      | .date ms => writeDate ms s
      | .obj id props => serRun f (.object id props) s
    | .array xs =>
      let s1 := writeU8 9 s
      let s2 := writeU29 (2 * (xs.length : Int) + 1) false s1
      let s3 := writeUTF8 [] false s2
      serRun f (.listLoop xs) s3
    | .listLoop [] => s
    | .listLoop (v :: vs) => serRun f (.listLoop vs) (serRun f (.value v) s)
    | .object id props =>
      let s1 := writeU8 10 s
      if id ∈ s1.objRefs then
        writeU29 (2 * (s1.objRefs.indexOf id : Int)) false s1
      else
        let s2 := { s1 with objRefs := s1.objRefs ++ [id] }
        let s3 := writeU29 11 false s2
        let s4 := writeUTF8 (classNameOf props) false s3
        let s5 := serRun f (.propsLoop props) s4
        writeUTF8 [] false s5
    | .propsLoop [] => s
    | .propsLoop ((k, v) :: ps) =>
      serRun f (.propsLoop ps) (serRun f (.value v) (writeUTF8 k false s))

/-- `Serializer::writeValue`. -/
def writeValue (f : Nat) (v : Value) (s : SState) : SState := serRun f (.value v) s

/-- `Serializer::writeArray`. -/
def writeArray (f : Nat) (xs : List Value) (s : SState) : SState := serRun f (.array xs) s

/-- The element loop of `Serializer::writeArray`. -/
def writeList (f : Nat) (xs : List Value) (s : SState) : SState := serRun f (.listLoop xs) s

/-- `Serializer::writeObject`. -/
def writeObject (f : Nat) (id : Nat) (props : List (List Nat × Value)) (s : SState) :
    SState := serRun f (.object id props) s

/-- The property loop of `Serializer::writeObject`. -/
def writeProps (f : Nat) (ps : List (List Nat × Value)) (s : SState) : SState :=
  serRun f (.propsLoop ps) s

/-- `Serializer::Run`: serialize one value with a fresh serializer. -/
def serialize (fuel : Nat) (be : Bool) (v : Value) : SState :=
  writeValue fuel v (initS be)

/-! ## Deserializer (deserializer.cc)

`Nan::ThrowError` only records a pending exception; the C++ continues to
execute, so every error below is recorded in the state and the function
carries on exactly as the source does.  Reference-table accesses the
source performs *after* a failed range check (out-of-bounds
`std::vector::operator[]`) are modelled as default results with the
error already recorded. -/

/-- The pending-exception kinds a decode can record. -/
inductive DErr where
  | truncated : DErr
  | badMarker : DErr
  | badStringRef : DErr
  | badObjectRef : DErr
  | badTraitRef : DErr
  | externalizable : DErr
  | badFlag : DErr
  | outOfFuel : DErr
  deriving Repr, DecidableEq

/-- `Deserializer::Traits`. -/
structure Traits where
  dynamic : Bool
  props : List (List Nat)
  deriving Repr, DecidableEq

/-- `Deserializer::ObjRef`: a captured byte region plus the inline tag
(`attr`) needed to re-parse it. -/
structure ObjRef where
  region : Region
  attr : Int
  deriving Repr, DecidableEq

/-- Decoder state: the three reference tables and the pending-exception
flag.  `strRefs_` stores `Region` copies, exactly as the source does. -/
structure DState where
  strRefs : List Region
  objRefs : List ObjRef
  traitRefs : List Traits
  err : Option DErr
  deriving Repr, DecidableEq

/-- A fresh decoder. -/
def initD : DState := { strRefs := [], objRefs := [], traitRefs := [], err := none }

/-- Record a pending exception (`Nan::ThrowError`). -/
def DState.fail (ds : DState) (e : DErr) : DState := { ds with err := some e }

/-- The free function `toString` of `deserializer.cc`: grab `len` bytes
and build a string from them; a failed bounds check records an error but
the source still builds the string from whatever the data pointer
reaches.  `Nan::New<String>(str, len)` treats a *negative* `len` as
NUL-terminated: v8 scans the raw buffer from the data pointer up to the
first NUL byte, ignoring the region's bounds (the buffer always ends in
the appended NUL, so the scan terminates inside it). -/
def toStringR (r : Region) (len : Int) (ds : DState) : Region × DState × List Nat :=
  let (r1, ok, d) := r.read len
  let ds1 := if ok then ds else ds.fail .truncated
  let t := if len < 0 then (r.bytes.drop r.curr.toNat).takeWhile (fun b => b != 0) else d
  (r1, ds1, t)

/-- The tag dispatch of `Deserializer::readUTF8`, after `readInt29`
produced the tag `n`.  An odd tag is an inline string: zero length
yields the empty string without interning, otherwise the region is
appended to `strRefs_` *before* the string is read.  An even tag is a
back-reference; it is materialized from the stored region and not
re-interned. -/
def readUTF8core (r1 : Region) (n : Int) (ds : DState) : Region × DState × List Nat :=
  if n.emod 2 = 1 then
    let len : Int := n.fdiv 2
    if len = 0 then (r1, ds, [])
    else
      let ds1 := { ds with strRefs := ds.strRefs ++ [r1.copy len] }
      toStringR r1 len ds1
  else
    let refIndex : Nat := ((n.fdiv 2).emod (2 ^ 32)).toNat
    if h : refIndex < ds.strRefs.length then
      let temp := (ds.strRefs.get ⟨refIndex, h⟩).copy (-1)
      let (_, ds1, t) := toStringR temp temp.remainingLength ds
      (r1, ds1, t)
    else
      (r1, ds.fail .badStringRef, [])

/-- `Deserializer::readUTF8` proper: read the U29 tag and dispatch.  On
a failed `readInt29` the source's `n` keeps its initializer `0` and
execution continues with the error flagged. -/
def readUTF8 (r : Region) (ds : DState) : Region × DState × List Nat :=
  match r.readInt29 with
  | (r1, some n) => readUTF8core r1 n ds
  | (r1, none) => readUTF8core r1 0 (ds.fail .truncated)

/-- `Deserializer::readInteger`.  On failure the output variable is left
uninitialized by the source; the model returns `0` with the error
recorded. -/
def readInteger (r : Region) (ds : DState) : Region × DState × Value :=
  let (r1, oi) := r.readInt29
  match oi with
  | some v => (r1, ds, .int v)
  | none => (r1, ds.fail .truncated, .int 0)

/-- `Deserializer::readDouble`. -/
def readDoubleV (r : Region) (ds : DState) : Region × DState × Value :=
  let (r1, od) := r.readDouble
  match od with
  | some b => (r1, ds, .dbl b)
  | none => (r1, ds.fail .truncated, .dbl [0, 0, 0, 0, 0, 0, 0, 0])

/-- `Deserializer::readDate`: an odd tag captures the next 8 bytes as an
object reference and reads the milliseconds; an even tag re-reads the
captured payload (the outer cursor advances only past the tag). -/
def readDate (r : Region) (ds : DState) : Region × DState × Value :=
  let (r1, oi) := r.readInt29
  let ds0 := if oi.isSome then ds else ds.fail .truncated
  let n : Int := oi.getD 0
  if n.emod 2 = 1 then
    let ds1 := { ds0 with objRefs := ds0.objRefs ++ [⟨r1.copy 8, 0⟩] }
    let (r2, od) := r1.readDouble
    match od with
    | some t => (r2, ds1, .date t)
    | none => (r2, ds1.fail .truncated, .date [0, 0, 0, 0, 0, 0, 0, 0])
  else
    let refIndex : Nat := ((n.fdiv 2).emod (2 ^ 32)).toNat
    if h : refIndex < ds0.objRefs.length then
      let temp := ((ds0.objRefs.get ⟨refIndex, h⟩).region).copy (-1)
      let (_, od) := temp.readDouble
      match od with
      | some t => (r1, ds0, .date t)
      | none => (r1, ds0.fail .truncated, .date [0, 0, 0, 0, 0, 0, 0, 0])
    else (r1, ds0.fail .badObjectRef, .date [0, 0, 0, 0, 0, 0, 0, 0])

/-- `v8::Object::Set`: setting an existing key updates the value in
place (the key keeps its original insertion position); a new key is
appended. -/
def setProp : List (List Nat × Value) → List Nat → Value → List (List Nat × Value)
  | [], k, v => [(k, v)]
  | (k', v') :: rest, k, v =>
    if k' = k then (k', v) :: rest else (k', v') :: setProp rest k v

/-- The sealed-property-name loop of the trait-declaration branch of
`Deserializer::readObjectWithFlag`. -/
def readTraitProps : Region → Nat → DState → Region × DState × List (List Nat)
  | r, 0, ds => (r, ds, [])
  | r, k + 1, ds =>
    let (r1, ds1, name) := readUTF8 r ds
    let (r2, ds2, rest) := readTraitProps r1 k ds1
    (r2, ds2, name :: rest)

/-- The pending recursive activations of the decoder: one operation code
per mutually recursive function of `deserializer.cc`.  As with the
serializer, the mutual recursion is modelled as one fueled interpreter;
the wrappers below carry the source function names. -/
inductive DOp where
  | value : DOp
  | array : DOp
  | arrayWithLength : Int → DOp
  | assocLoop : DOp
  | denseLoop : Nat → DOp
  | object : DOp
  | objectWithFlag : Int → DOp
  | objectFromTraits : Traits → DOp
  | sealedLoop : List (List Nat) → List (List Nat × Value) → DOp
  | dynPropsLoop : List (List Nat × Value) → DOp
  deriving Repr

/-- The result of a decoder activation. -/
inductive DRes where
  | val : Value → DRes
  | unitRes : DRes
  | vals : List Value → DRes
  | propsRes : List (List Nat × Value) → DRes
  deriving Repr

/-- The `Value` result of an activation (all value-producing operation
codes return `.val`). -/
def DRes.value : DRes → Value
  | .val v => v
  | _ => Value.undef

/-- The element-list result of `.denseLoop`. -/
def DRes.list : DRes → List Value
  | .vals vs => vs
  | _ => []

/-- The property-list result of `.sealedLoop` / `.dynPropsLoop`. -/
def DRes.props : DRes → List (List Nat × Value)
  | .propsRes ps => ps
  | _ => []

/-- The decoder's recursive functions, one fuel step per call.

* `.value` is `Deserializer::readValue`: marker dispatch.  The failure
  of the marker read is ignored by the source (the result of
  `region->readUInt8(&marker)` is discarded), so an exhausted region
  falls through with the initial `AMF3_UNDEFINED` marker and yields
  `Undefined` without error.
* `.array` is `Deserializer::readArray`: an odd tag is an inline array
  whose reference slot (captured region and dense length) is recorded
  *before* the body is parsed; an even tag re-parses the captured
  region with the captured length, leaving the outer cursor just past
  the tag.
* `.arrayWithLength len` is `Deserializer::readArrayWithLength`; its
  associative-skipping loop is `.assocLoop` and its dense-portion loop
  is `.denseLoop k`.
* `.object` is `Deserializer::readObject`: an even tag is an object
  back-reference (re-parse the captured region under the captured tag);
  an odd tag records a reference slot first, then parses under the tag.
* `.objectWithFlag n` is `Deserializer::readObjectWithFlag`: reject an
  even flag; reject externalizable traits (`n & 7 == 7`); an inline
  trait declaration (`n & 7 == 3`) reads the class name and the sealed
  property names and appends the descriptor to `traitRefs_`; a trait
  back-reference (`n & 3 == 1`) looks the descriptor up; anything else
  is an error.
* `.objectFromTraits t` is `Deserializer::readObjectFromRegionAndTraits`
  (one value per sealed property name via `.sealedLoop`, then the
  dynamic pairs via `.dynPropsLoop`, which is
  `Deserializer::readObjectDynamicProps`). -/
def decRun : Nat → DOp → Region → DState → Region × DState × DRes
  | 0, _, r, ds => (r, ds.fail .outOfFuel, .val .undef)
  | f + 1, op, r, ds =>
    match op with
    | .value =>
      let (r1, ob) := r.readUInt8
      let marker := ob.getD 0
      match marker with
      | 0 => (r1, ds, .val .undef)
      | 1 => (r1, ds, .val .null)
      | 2 => (r1, ds, .val (.bool false))
      | 3 => (r1, ds, .val (.bool true))
      | 4 =>
        let (r2, ds2, v) := readInteger r1 ds
        (r2, ds2, .val v)
      | 5 =>
        let (r2, ds2, v) := readDoubleV r1 ds
        (r2, ds2, .val v)
      | 6 =>
        let (r2, ds2, t) := readUTF8 r1 ds
        (r2, ds2, .val (.str t))
      | 8 =>
        let (r2, ds2, v) := readDate r1 ds
        (r2, ds2, .val v)
      | 9 => decRun f .array r1 ds
      | 10 => decRun f .object r1 ds
      | _ => (r1, ds.fail .badMarker, .val .undef)
    | .array =>
      let (r1, oi) := r.readInt29
      let ds0 := if oi.isSome then ds else ds.fail .truncated
      let n : Int := oi.getD 0
      if n.emod 2 = 1 then
        let len : Int := n.fdiv 2
        let ds1 := { ds0 with objRefs := ds0.objRefs ++ [⟨r1.copy (-1), len⟩] }
        decRun f (.arrayWithLength len) r1 ds1
      else
        let refIndex : Nat := ((n.fdiv 2).emod (2 ^ 32)).toNat
        if h : refIndex < ds0.objRefs.length then
          let ref := ds0.objRefs.get ⟨refIndex, h⟩
          let (_, ds2, v) := decRun f (.arrayWithLength ref.attr) ref.region ds0
          (r1, ds2, v)
        else (r1, ds0.fail .badObjectRef, .val (.arr []))
    | .arrayWithLength len =>
      let (r1, ds1, _) := decRun f .assocLoop r ds
      let (r2, ds2, items) := decRun f (.denseLoop len.toNat) r1 ds1
      (r2, ds2, .val (.arr items.list))
    | .assocLoop =>
      let (r1, ds1, key) := readUTF8 r ds
      if key.length ≠ 0 then
        let (r2, ds2, _) := decRun f .value r1 ds1
        decRun f .assocLoop r2 ds2
      else (r1, ds1, .unitRes)
    | .denseLoop 0 => (r, ds, .vals [])
    | .denseLoop (k + 1) =>
      let (r1, ds1, v) := decRun f .value r ds
      let (r2, ds2, vs) := decRun f (.denseLoop k) r1 ds1
      (r2, ds2, .vals (v.value :: vs.list))
    | .object =>
      let (r1, oi) := r.readInt29
      let ds0 := if oi.isSome then ds else ds.fail .truncated
      let n : Int := oi.getD 0
      if n.emod 2 = 0 then
        let refIndex : Nat := ((n.fdiv 2).emod (2 ^ 32)).toNat
        if h : refIndex < ds0.objRefs.length then
          let ref := ds0.objRefs.get ⟨refIndex, h⟩
          let (_, ds2, v) := decRun f (.objectWithFlag ref.attr) ref.region ds0
          (r1, ds2, v)
        else (r1, ds0.fail .badObjectRef, .val (.obj 0 []))
      else
        let ds1 := { ds0 with objRefs := ds0.objRefs ++ [⟨r1.copy (-1), n⟩] }
        decRun f (.objectWithFlag n) r1 ds1
    | .objectWithFlag n =>
      if n.emod 2 = 0 then (r, ds.fail .badFlag, .val (.obj 0 []))
      else if n.emod 8 = 7 then (r, ds.fail .externalizable, .val (.obj 0 []))
      else if n.emod 8 = 3 then
        let dyn := decide (8 ≤ n.emod 16)
        let (r1, ds1, _clsname) := readUTF8 r ds
        let (r2, ds2, names) := readTraitProps r1 (n.fdiv 16).toNat ds1
        let traits : Traits := { dynamic := dyn, props := names }
        let ds3 := { ds2 with traitRefs := ds2.traitRefs ++ [traits] }
        decRun f (.objectFromTraits traits) r2 ds3
      else if n.emod 4 = 1 then
        let refIndex : Nat := ((n.fdiv 4).emod (2 ^ 32)).toNat
        if h : refIndex < ds.traitRefs.length then
          decRun f (.objectFromTraits (ds.traitRefs.get ⟨refIndex, h⟩)) r ds
        else (r, ds.fail .badTraitRef, .val (.obj 0 []))
      else (r, ds.fail .badFlag, .val (.obj 0 []))
    | .objectFromTraits traits =>
      let (r1, ds1, props) := decRun f (.sealedLoop traits.props []) r ds
      if traits.dynamic then
        let (r2, ds2, props2) := decRun f (.dynPropsLoop props.props) r1 ds1
        (r2, ds2, .val (.obj 0 props2.props))
      else (r1, ds1, .val (.obj 0 props.props))
    | .sealedLoop [] acc => (r, ds, .propsRes acc)
    | .sealedLoop (name :: names) acc =>
      let (r1, ds1, v) := decRun f .value r ds
      decRun f (.sealedLoop names (setProp acc name v.value)) r1 ds1
    | .dynPropsLoop props =>
      let (r1, ds1, key) := readUTF8 r ds
      if key.length ≠ 0 then
        let (r2, ds2, v) := decRun f .value r1 ds1
        decRun f (.dynPropsLoop (setProp props key v.value)) r2 ds2
      else (r1, ds1, .propsRes props)

/-- `Deserializer::readValue`. -/
def readValue (f : Nat) (r : Region) (ds : DState) : Region × DState × Value :=
  let (r1, ds1, res) := decRun f .value r ds
  (r1, ds1, res.value)

/-- `Deserializer::readArray`. -/
def readArray (f : Nat) (r : Region) (ds : DState) : Region × DState × Value :=
  let (r1, ds1, res) := decRun f .array r ds
  (r1, ds1, res.value)

/-- `Deserializer::readArrayWithLength`. -/
def readArrayWithLength (f : Nat) (r : Region) (len : Int) (ds : DState) :
    Region × DState × Value :=
  let (r1, ds1, res) := decRun f (.arrayWithLength len) r ds
  (r1, ds1, res.value)

/-- `Deserializer::readObject`. -/
def readObject (f : Nat) (r : Region) (ds : DState) : Region × DState × Value :=
  let (r1, ds1, res) := decRun f .object r ds
  (r1, ds1, res.value)

/-- `Deserializer::readObjectWithFlag`. -/
def readObjectWithFlag (f : Nat) (r : Region) (n : Int) (ds : DState) :
    Region × DState × Value :=
  let (r1, ds1, res) := decRun f (.objectWithFlag n) r ds
  (r1, ds1, res.value)

/-- `Deserializer::Run`: build the read buffer (payload bytes plus the
trailing NUL) and read one top-level value, returning it together with
`consumed` and the final decoder state. -/
def deserialize (fuel : Nat) (be : Bool) (payload : List Nat) :
    Value × Int × DState :=
  let r0 := mkReadBuffer payload be
  let (r1, ds, v) := readValue fuel r0 initD
  (v, r1.consumed, ds)

/-! ## Basic arithmetic lemmas -/

/-- Bitwise or of a shifted value with a small value is addition. -/
theorem or_shift_eq_add (k a b : Nat) (h : b < 2 ^ k) :
    a <<< k ||| b = a * 2 ^ k + b := by
  apply Nat.eq_of_testBit_eq
  intro j
  rw [Nat.testBit_lor, Nat.testBit_shiftLeft, mul_comm a (2 ^ k),
    Nat.testBit_mul_pow_two_add a h j]
  rcases lt_or_ge j k with hjk | hjk
  · simp [if_pos hjk, Nat.not_le.mpr hjk, hjk]
  · have hb : b.testBit j = false :=
      Nat.testBit_eq_false_of_lt (lt_of_lt_of_le h (Nat.pow_le_pow_right (by omega) hjk))
    simp [if_neg (Nat.not_lt.mpr hjk), hb, hjk, ge_iff_le]

/-- Masking with `0x7F` is reduction modulo 128. -/
theorem and_7F_eq_mod (b : Nat) : b &&& 0x7F = b % 128 :=
  Nat.and_pow_two_sub_one_eq_mod b 7

/-- Masking with `0xFF` is reduction modulo 256. -/
theorem and_FF_eq_mod (b : Nat) : b &&& 0xFF = b % 256 :=
  Nat.and_pow_two_sub_one_eq_mod b 8

/-- The test `b & 2^k` for a value of fewer than `k + 1` bits. -/
theorem and_two_pow_ne_zero_iff (k b : Nat) (hb : b < 2 ^ (k + 1)) :
    b &&& 2 ^ k ≠ 0 ↔ 2 ^ k ≤ b := by
  have h : b &&& 2 ^ k = (b.testBit k).toNat * 2 ^ k := Nat.and_two_pow b k
  have h2 : b.testBit k = decide (b / 2 ^ k % 2 = 1) := Nat.testBit_to_div_mod
  have hpos : 0 < 2 ^ k := Nat.pos_pow_of_pos k (by omega)
  rw [h, h2]
  rcases Nat.lt_or_ge b (2 ^ k) with hlt | hge
  · have hd : b / 2 ^ k = 0 := Nat.div_eq_of_lt hlt
    simp [hd]
    omega
  · have hd : b / 2 ^ k = 1 := by
      apply Nat.div_eq_of_lt_le
      · simpa using hge
      · have h2k : (2 : Nat) ^ (k + 1) = (1 + 1) * 2 ^ k := by ring
        omega
    simp [hd, hge]

/-- The continuation test `byte & 0x80` for a byte value. -/
theorem and_80_ne_zero_iff (b : Nat) (hb : b < 256) :
    b &&& 0x80 ≠ 0 ↔ 128 ≤ b :=
  and_two_pow_ne_zero_iff 7 b hb

/-! ## Claim C3: `readInt29` implements the claim's loop -/

/-- The first byte at the cursor, as delivered by a one-byte read. -/
theorem headD_take_drop (B : List Nat) : ∀ m : Nat,
    ((B.drop m).take 1).headD 0 = B.getD m 0 := by
  induction B with
  | nil => intro m; simp
  | cons b t ih =>
    intro m
    rcases m with _ | m
    · simp
    · simpa using ih m

/-- The claim's description of the `read_u29` loop, written from the
spec's words: while the current byte has its high bit set and fewer than
three continuation bytes were consumed, shift the accumulator left 7 and
or in the low 7 bits; for the final byte shift left 7 and or the low 7
bits if fewer than three continuations were consumed, otherwise shift
left 8 and or all 8 bits.  `k` counts the continuation bytes still
allowed (3 at entry). -/
def u29specGo : Nat → Region → Nat → Option Nat
  | 0, r, acc =>
    if r.curr + 1 ≤ r.endPos then
      some (acc <<< 8 ||| (r.bytes.getD r.curr.toNat 0 &&& 0xFF))
    else none
  | k + 1, r, acc =>
    if r.curr + 1 ≤ r.endPos then
      let b := r.bytes.getD r.curr.toNat 0
      if b &&& 0x80 ≠ 0 then
        u29specGo k { r with curr := r.curr + 1 } (acc <<< 7 ||| (b &&& 0x7F))
      else some (acc <<< 7 ||| (b &&& 0x7F))
    else none

/-- The claim's reader: run the loop, then (default build) subtract
`0x20000000` when bit `0x10000000` is set. -/
def readU29spec (r : Region) : Option Int :=
  (u29specGo 3 r 0).map fun (raw : Nat) =>
    if raw &&& 0x10000000 ≠ 0 then (raw : Int) - 0x20000000 else (raw : Int)

/-- One continuation step keeps the accumulator under the next 7-bit
boundary. -/
theorem raw_bound_step (a b k : Nat) (ha : a < 2 ^ k) :
    a <<< 7 ||| (b &&& 0x7F) < 2 ^ (k + 7) := by
  rw [and_7F_eq_mod, or_shift_eq_add 7 a (b % 128) (by omega)]
  have hp : (2 : Nat) ^ (k + 7) = 2 ^ k * 128 := by ring
  have hm : b % 128 < 128 := by omega
  rw [hp]
  have := Nat.shiftLeft_eq a 7
  omega

/-- The full-byte final step keeps the value under the next 8-bit
boundary. -/
theorem raw_bound_final (a b k : Nat) (ha : a < 2 ^ k) :
    a <<< 8 ||| (b &&& 0xFF) < 2 ^ (k + 8) := by
  rw [and_FF_eq_mod, or_shift_eq_add 8 a (b % 256) (by omega)]
  have hp : (2 : Nat) ^ (k + 8) = 2 ^ k * 256 := by ring
  have hm : b % 256 < 256 := by omega
  rw [hp]
  omega

/-- Sign adjustment of a 29-bit raw value lands in the `i32` range
`[-2^28, 2^28 - 1]`. -/
theorem signAdjust_range (raw : Nat) (hr : raw < 2 ^ 29) :
    -(2 ^ 28) ≤ (if raw &&& 0x10000000 ≠ 0 then (raw : Int) - 0x20000000 else (raw : Int)) ∧
      (if raw &&& 0x10000000 ≠ 0 then (raw : Int) - 0x20000000 else (raw : Int)) < 2 ^ 28 := by
  have h : raw &&& 2 ^ 28 ≠ 0 ↔ 2 ^ 28 ≤ raw := and_two_pow_ne_zero_iff 28 raw (by omega)
  have h16 : (0x10000000 : Nat) = 2 ^ 28 := by norm_num
  rw [h16]
  split
  · rename_i hset
    have hge := h.mp hset
    omega
  · rename_i hunset
    have hlt : raw < 2 ^ 28 := by
      by_contra hge
      exact hunset (h.mpr (by omega))
    omega

/-- `readInt29` always advances the cursor by one to four bytes. -/
theorem readInt29_advances (r : Region) :
    r.curr + 1 ≤ r.readInt29.1.curr ∧ r.readInt29.1.curr ≤ r.curr + 4 := by
  simp only [Region.readInt29, Region.read, Bool.not_eq_eq_eq_not, Bool.not_true,
    decide_eq_false_iff_not, not_le]
  repeat' split
  all_goals simp only [Option.some_ne_none, iff_false, not_lt, false_iff, true_iff,
    reduceCtorEq, and_self, and_true, true_and, le_refl]
  all_goals omega

/-- `readInt29` fails exactly when its final cursor passed the end. -/
theorem readInt29_none_iff (r : Region) :
    r.readInt29.2 = none ↔ r.endPos < r.readInt29.1.curr := by
  simp only [Region.readInt29, Region.read, Bool.not_eq_eq_eq_not, Bool.not_true,
    decide_eq_false_iff_not, not_le]
  repeat' split
  all_goals simp only [Option.some_ne_none, iff_false, not_lt, false_iff, true_iff,
    reduceCtorEq, and_self, and_true, true_and, le_refl]
  all_goals omega

/-- The loop's raw result carries at most eight bits more than seven per
remaining continuation on top of the accumulator. -/
theorem u29specGo_bound : ∀ (k : Nat) (r : Region) (acc m : Nat), acc < 2 ^ m →
    ∀ raw, u29specGo k r acc = some raw → raw < 2 ^ (m + 7 * k + 8) := by
  intro k
  induction k with
  | zero =>
    intro r acc m hacc raw h
    unfold u29specGo at h
    split at h
    · simp only [Option.some.injEq] at h
      have hfin := raw_bound_final acc (r.bytes.getD r.curr.toNat 0) m hacc
      have hexp : m + 7 * 0 + 8 = m + 8 := by ring
      rw [hexp]
      omega
    · exact absurd h (by simp)
  | succ k ih =>
    intro r acc m hacc raw h
    unfold u29specGo at h
    split at h
    · simp only [ne_eq] at h
      split at h
      · have hstep := raw_bound_step acc (r.bytes.getD r.curr.toNat 0) m hacc
        have hr := ih _ _ (m + 7) hstep raw h
        have hexp : m + 7 + 7 * k + 8 = m + 7 * (k + 1) + 8 := by ring
        rw [hexp] at hr
        exact hr
      · simp only [Option.some.injEq] at h
        have hstep := raw_bound_step acc (r.bytes.getD r.curr.toNat 0) m hacc
        have hmono : (2 : Nat) ^ (m + 7) ≤ 2 ^ (m + 7 * (k + 1) + 8) :=
          Nat.pow_le_pow_right (by omega) (by omega)
        omega
    · exact absurd h (by simp)

set_option maxHeartbeats 3000000 in
/-- C3: `readInt29` reads between one and four bytes; it computes
exactly the value described by the claim's loop with the default-build
sign adjustment (`readU29spec`); and every successfully decoded value is
an `i32` in `[-2^28, 2^28 - 1]`. -/
theorem c3_readInt29_loop_and_range (r : Region) :
    (r.curr + 1 ≤ r.readInt29.1.curr ∧ r.readInt29.1.curr ≤ r.curr + 4) ∧
    r.readInt29.2 = readU29spec r ∧
    (∀ v : Int, r.readInt29.2 = some v → -(2 ^ 28) ≤ v ∧ v < 2 ^ 28) := by
  have hspec : r.readInt29.2 = readU29spec r := by
    simp only [Region.readInt29, Region.read, Region.slice, readU29spec, u29specGo,
      Int.toNat_one, headD_take_drop, Bool.not_eq_eq_eq_not, Bool.not_true,
      decide_eq_false_iff_not, not_le, Option.map_some, Option.map_none]
    repeat' split
    all_goals simp_all
    all_goals omega
  refine ⟨readInt29_advances r, hspec, ?_⟩
  intro v hv
  rw [hspec] at hv
  unfold readU29spec at hv
  rw [Option.map_eq_some'] at hv
  obtain ⟨raw, hraw, hval⟩ := hv
  have hbound : raw < 2 ^ 29 := by
    have := u29specGo_bound 3 r 0 0 (by omega) raw hraw
    have hle : (2 : Nat) ^ (0 + 7 * 3 + 8) = 2 ^ 29 := by norm_num
    omega
  have := signAdjust_range raw hbound
  rw [hval] at this
  exact this

/-- C3 witness: on the region holding `FF FF FF FF`, `readInt29` reads
four bytes, agrees with the claim's loop, and produces `-1` (the sign
adjustment of the raw `0x1FFFFFFF`), inside `[-2^28, 2^28 - 1]`. -/
theorem c3_witness :
    ((Region.readInt29
        { bytes := [0xFF, 0xFF, 0xFF, 0xFF], start := 0, curr := 0, endPos := 4,
          bigEndian := false }).2 = some (-1) ∧
      readU29spec
        { bytes := [0xFF, 0xFF, 0xFF, 0xFF], start := 0, curr := 0, endPos := 4,
          bigEndian := false } = some (-1)) ∧
    (-(2 ^ 28) ≤ (-1 : Int) ∧ (-1 : Int) < 2 ^ 28) := by
  have h := c3_readInt29_loop_and_range
    { bytes := [0xFF, 0xFF, 0xFF, 0xFF], start := 0, curr := 0, endPos := 4,
      bigEndian := false }
  have hval : (Region.readInt29
      { bytes := [0xFF, 0xFF, 0xFF, 0xFF], start := 0, curr := 0, endPos := 4,
        bigEndian := false }).2 = some (-1) := by decide
  exact ⟨⟨hval, by rw [← h.2.1]; exact hval⟩, h.2.2 (-1) hval⟩

/-! ## Claim C1: decoding a strict prefix of a valid encoding

`ReadBuffer` appends a readable NUL byte to the payload and
`Deserializer::readValue` ignores the failure of the marker read, so a
truncated stream can decode *successfully*: the empty prefix of
`encode(Null)` decodes to `Undefined` with no error, and the one-byte
prefix of `encode(Integer(0))` decodes to `Integer(0)` with no error
(the NUL pad byte serves as the U29 payload). -/

/-- C1: the code evaluated at the failing inputs.  `encode(Null) = [0x01]`
is a valid encoding; its length-0 prefix decodes to `Undefined` with no
pending error, and `consumed = 1`.  Likewise `encode(Integer(0)) =
[0x04, 0x00]`, whose length-1 prefix decodes to `Integer(0)` with no
error.  Both contradict the claim that every strict prefix of a valid
encoding yields an error. -/
theorem c1_prefix_decode_succeeds :
    (serialize 10 false .null).buf = [0x01] ∧
    deserialize 10 false (List.take 0 [0x01]) = (.undef, 1, initD) ∧
    (serialize 10 false (.int 0)).buf = [0x04, 0x00] ∧
    deserialize 10 false (List.take 1 [0x04, 0x00]) = (.int 0, 2, initD) := by
  refine ⟨rfl, rfl, rfl, rfl⟩

/-! ## Claim C2: `writeU29` byte-count boundaries

`Serializer::writeU29` takes the two-byte fast path for `n < 0x200000`
and otherwise pushes the low 8 bits, then the next 7, then loops
`while (n >= 0x80)` on `n >> 8` — but the loop shifts *before* emitting,
so for `n ∈ [0x200000, 0x3FFFFF]` it stops after a single iteration and
only three bytes are emitted, losing bit 7 of the value.  The spec's
4-byte boundary at `0x200000` is therefore not honoured; the code's
actual 4-byte threshold is `0x400000`. -/

/-- C2: the code evaluated at the failing input.  `writeU29(0x200000)`
emits the three bytes `C0 80 00` — not four — and the repository's own
`readInt29` decodes those bytes back to `0x100000`, not `0x200000`.
The boundaries below the broken threshold, and at `0x1FFFFFFF`, behave
as the claim states. -/
theorem c2_writeU29_0x200000_is_three_bytes :
    writeU29bytes 0x200000 = [0xC0, 0x80, 0x00] ∧
    (writeU29bytes 0x200000).length = 3 ∧
    (Region.readInt29
        { bytes := [0xC0, 0x80, 0x00], start := 0, curr := 0, endPos := 3,
          bigEndian := false }).2 = some 0x100000 ∧
    (writeU29bytes 0).length = 1 ∧ (writeU29bytes 0x7F).length = 1 ∧
    (writeU29bytes 0x80).length = 2 ∧ (writeU29bytes 0x3FFF).length = 2 ∧
    (writeU29bytes 0x4000).length = 3 ∧ (writeU29bytes 0x1FFFFF).length = 3 ∧
    (writeU29bytes 0x200000).length ≠ 4 ∧ (writeU29bytes 0x1FFFFFFF).length = 4 := by
  refine ⟨rfl, rfl, rfl, rfl, rfl, rfl, rfl, rfl, rfl, by decide, rfl⟩

/-! ## Claim C4: double encoding and the canonical NaN

`Serializer::writeDouble` emits the canonical NaN bytes for NaN on
either host, and eight big-endian payload bytes on a little-endian
host — but its big-endian branch is `for (int i = 0; i < 7; ++i)`,
which emits only *seven* payload bytes; the claim's "regardless of host
endianness" fails.  Decoding the canonical 9-byte NaN sequence yields a
quiet NaN on either host. -/

/-- C4: the code evaluated at the failing input (big-endian host,
`d = 0.5`, IEEE bytes `3F E0 00 00 00 00 00 00`): the encoder emits the
marker plus only seven payload bytes.  The little-endian and NaN parts
of the claim, and the decode half, behave as stated. -/
theorem c4_writeDouble_bigEndian_drops_a_byte :
    (writeDouble [0x3F, 0xE0, 0, 0, 0, 0, 0, 0] true (initS true)).buf =
      [0x05, 0x3F, 0xE0, 0, 0, 0, 0, 0] ∧
    (writeDouble [0x3F, 0xE0, 0, 0, 0, 0, 0, 0] true (initS true)).buf.length = 8 ∧
    (writeDouble [0x3F, 0xE0, 0, 0, 0, 0, 0, 0] true (initS false)).buf =
      [0x05, 0x3F, 0xE0, 0, 0, 0, 0, 0, 0] ∧
    (writeDouble [0x7F, 0xF8, 0, 0, 0, 0, 0, 1] true (initS true)).buf =
      0x05 :: encodedNaN ∧
    (writeDouble [0x7F, 0xF8, 0, 0, 0, 0, 0, 1] true (initS false)).buf =
      0x05 :: encodedNaN ∧
    deserialize 4 true [0x05, 0, 0, 0, 0, 0, 0, 0xF8, 0x7F] =
      (.dbl Region.quietNaN, 9, initD) ∧
    deserialize 4 false [0x05, 0, 0, 0, 0, 0, 0, 0xF8, 0x7F] =
      (.dbl Region.quietNaN, 9, initD) ∧
    F64.isNaN Region.quietNaN = true := by
  refine ⟨rfl, rfl, rfl, rfl, rfl, rfl, rfl, rfl⟩

/-! ## Claim C7: the conservative Integer threshold

`Serializer::writeNumber` emits the Integer marker plus `writeU29(i)`
exactly for integral values in `[0, 0x200000)` and writes everything
else as a double — but on a big-endian host the double payload is seven
bytes (the `writeDouble` bug), not the eight the claim states. -/

/-- The threshold dichotomy of `writeNumber` for integer-valued inputs,
read off the definition: the Integer path exactly for
`0 ≤ i < 0x200000`, the Double path (on the exact IEEE image of `i`)
otherwise. -/
theorem writeNumber_int_dichotomy (f : Nat) (i : Int) (s : SState) :
    writeValue (f + 1) (.int i) s =
      if 0 ≤ i ∧ i < 0x200000 then writeU29 i true s
      else writeDouble (F64.ofInt i) true s := by
  simp only [writeValue, serRun, writeNumber]

set_option maxRecDepth 8000 in
/-- C7: the code evaluated at the boundary inputs.  On a little-endian
host the claimed dichotomy byte patterns hold (`0x1FFFFF` is the last
Integer-marker value; `0x200000` and `-1` are doubles, marker plus 8
bytes); on a big-endian host the Double leg emits only seven payload
bytes, not the eight the claim asserts. -/
theorem c7_integer_threshold_boundaries :
    (serialize 4 false (.int 0)).buf = [0x04, 0x00] ∧
    (serialize 4 false (.int 0x1FFFFF)).buf = [0x04, 0xFF, 0xFF, 0x7F] ∧
    (serialize 4 false (.int 0x200000)).buf =
      [0x05, 0x41, 0x40, 0x00, 0x00, 0x00, 0x00, 0x00, 0x00] ∧
    (serialize 4 false (.int (-1))).buf =
      [0x05, 0xBF, 0xF0, 0x00, 0x00, 0x00, 0x00, 0x00, 0x00] ∧
    (serialize 4 true (.int 0x200000)).buf =
      [0x05, 0x41, 0x40, 0x00, 0x00, 0x00, 0x00, 0x00] ∧
    (serialize 4 true (.int 0x200000)).buf.length = 8 := by
  refine ⟨rfl, rfl, rfl, rfl, rfl, rfl⟩

/-! ## Claim C5: primitive reads on truncation

The failure condition is exactly `cursor + n > end`, but the claim's
"cursor unchanged on failure" is false: `Region::read` advances `curr_`
*before* the bound check and never rolls it back. -/

/-- C5, counterexample: `readUInt8` on an empty region fails and leaves
the cursor at `1`, not at its prior value `0`. -/
theorem c5_counterexample_cursor_advances :
    (Region.readUInt8
        { bytes := [], start := 0, curr := 0, endPos := 0, bigEndian := false }).2 =
      none ∧
    (Region.readUInt8
        { bytes := [], start := 0, curr := 0, endPos := 0, bigEndian := false }).1.curr =
      1 := by
  refine ⟨rfl, rfl⟩

set_option maxHeartbeats 2000000 in
/-- C5, amended: every primitive read fails exactly when the requested
bytes extend past the end of the region, but on failure the cursor has
been advanced past the end by the attempted read — `curr + n` for the
fixed-size reads — rather than left unchanged.  For `readInt29` the
bytes are requested one at a time (between one and four of them), and it
fails exactly when its final cursor passed the end. -/
theorem c5_truncation_conditions (r : Region) (len : Int) :
    ((r.read len).2.1 = false ↔ r.endPos < r.curr + len) ∧
    (r.read len).1.curr = r.curr + len ∧
    (r.readUInt8.2 = none ↔ r.endPos < r.curr + 1) ∧
    r.readUInt8.1.curr = r.curr + 1 ∧
    (r.readUInt16.2 = none ↔ r.endPos < r.curr + 2) ∧
    r.readUInt16.1.curr = r.curr + 2 ∧
    (r.readUInt32.2 = none ↔ r.endPos < r.curr + 4) ∧
    r.readUInt32.1.curr = r.curr + 4 ∧
    (r.readDouble.2 = none ↔ r.endPos < r.curr + 8) ∧
    r.readDouble.1.curr = r.curr + 8 ∧
    (r.readInt29.2 = none ↔ r.endPos < r.readInt29.1.curr) ∧
    (r.curr + 1 ≤ r.readInt29.1.curr ∧ r.readInt29.1.curr ≤ r.curr + 4) := by
  have hread : ∀ m : Int, (r.read m).2.1 = false ↔ r.endPos < r.curr + m := by
    intro m
    simp only [Region.read, decide_eq_false_iff_not, not_le]
  refine ⟨hread len, rfl, ?_, ?_, ?_, ?_, ?_, ?_, ?_, ?_, ?_, ?_⟩
  · simp only [Region.readUInt8, Region.read]
    split <;> rename_i h <;> simp only [decide_eq_true_eq] at h <;> simp <;> omega
  · simp only [Region.readUInt8, Region.read]
    split <;> rfl
  · simp only [Region.readUInt16, Region.read]
    split <;> rename_i h <;> simp only [decide_eq_true_eq] at h <;> simp <;> omega
  · simp only [Region.readUInt16, Region.read]
    split <;> rfl
  · simp only [Region.readUInt32, Region.read]
    split <;> rename_i h <;> simp only [decide_eq_true_eq] at h <;> simp <;> omega
  · simp only [Region.readUInt32, Region.read]
    split <;> rfl
  · simp only [Region.readDouble, Region.read]
    split <;> rename_i h <;> simp only [decide_eq_true_eq] at h
    · split <;> simp <;> omega
    · simp
      omega
  · simp only [Region.readDouble, Region.read]
    split
    · split <;> rfl
    · rfl
  · simp only [Region.readInt29, Region.read, Bool.not_eq_eq_eq_not, Bool.not_true,
      decide_eq_false_iff_not, not_le]
    repeat' split
    all_goals simp only [Option.some_ne_none, iff_false, not_lt, false_iff, true_iff,
      reduceCtorEq, and_self, and_true, true_and, le_refl]
    all_goals omega
  · simp only [Region.readInt29, Region.read, Bool.not_eq_eq_eq_not, Bool.not_true,
      decide_eq_false_iff_not, not_le]
    repeat' split
    all_goals simp only [Option.some_ne_none, iff_false, not_lt, false_iff, true_iff,
      reduceCtorEq, and_self, and_true, true_and, le_refl]
    all_goals omega

/-! ## Serializer state evolution

The serializer only ever appends to the output buffer and to the
object-reference table, and never changes the endianness flag. -/

/-- `s'` extends `s`: the buffer and the reference table of `s` are
prefixes of those of `s'`. -/
def SExtends (s s' : SState) : Prop :=
  (∃ out, s'.buf = s.buf ++ out) ∧ (∃ t, s'.objRefs = s.objRefs ++ t) ∧
    s'.bigEndian = s.bigEndian

theorem sExtends_refl (s : SState) : SExtends s s :=
  ⟨⟨[], by simp⟩, ⟨[], by simp⟩, rfl⟩

theorem sExtends_trans {s1 s2 s3 : SState} (h1 : SExtends s1 s2)
    (h2 : SExtends s2 s3) : SExtends s1 s3 := by
  obtain ⟨⟨o1, hb1⟩, ⟨t1, hr1⟩, he1⟩ := h1
  obtain ⟨⟨o2, hb2⟩, ⟨t2, hr2⟩, he2⟩ := h2
  exact ⟨⟨o1 ++ o2, by simp [hb2, hb1]⟩, ⟨t1 ++ t2, by simp [hr2, hr1]⟩, he2.trans he1⟩

theorem writeU8_sExtends (n : Nat) (s : SState) : SExtends s (writeU8 n s) :=
  ⟨⟨[n % 256], rfl⟩, ⟨[], by simp [writeU8]⟩, rfl⟩

theorem writeBytes_sExtends (bs : List Nat) (s : SState) : SExtends s (writeBytes bs s) :=
  ⟨⟨bs.map (· % 256), rfl⟩, ⟨[], by simp [writeBytes]⟩, rfl⟩

theorem sExtends_ifMarker (mk : Nat) (m : Bool) (s : SState) :
    SExtends s (if m then writeU8 mk s else s) := by
  split
  · exact writeU8_sExtends _ _
  · exact sExtends_refl _

theorem writeU29_sExtends (n : Int) (m : Bool) (s : SState) : SExtends s (writeU29 n m s) := by
  have h1 : SExtends s { s with err := s.err || decide (n < 0) } :=
    ⟨⟨[], by simp⟩, ⟨[], by simp⟩, rfl⟩
  refine sExtends_trans h1 ?_
  unfold writeU29
  exact sExtends_trans (sExtends_ifMarker 4 m _) (writeBytes_sExtends _ _)

theorem writeUTF8_sExtends (t : List Nat) (m : Bool) (s : SState) :
    SExtends s (writeUTF8 t m s) := by
  unfold writeUTF8
  exact sExtends_trans (sExtends_ifMarker 6 m s)
    (sExtends_trans (writeU29_sExtends _ _ _) (writeBytes_sExtends _ _))

theorem writeDouble_sExtends (b : List Nat) (m : Bool) (s : SState) :
    SExtends s (writeDouble b m s) := by
  simp only [writeDouble]
  split
  · exact sExtends_trans (sExtends_ifMarker 5 m s) (writeBytes_sExtends _ _)
  · split <;> exact sExtends_trans (sExtends_ifMarker 5 m s) (writeBytes_sExtends _ _)

theorem writeNumber_sExtends (v : Value) (m : Bool) (s : SState) :
    SExtends s (writeNumber v m s) := by
  rcases v with _ | _ | b | i | b | t | xs | ⟨id, props⟩ | ms <;>
      simp only [writeNumber] <;> try exact sExtends_refl _
  · split
    · exact writeU29_sExtends _ _ _
    · exact writeDouble_sExtends _ _ _
  · rcases h : F64.asInt b with _ | val
    · simp only [h]
      exact writeDouble_sExtends _ _ _
    · simp only [h]
      split
      · exact writeU29_sExtends _ _ _
      · exact writeDouble_sExtends _ _ _

theorem writeDate_sExtends (ms : List Nat) (s : SState) : SExtends s (writeDate ms s) :=
  sExtends_trans (writeU8_sExtends _ _)
    (sExtends_trans (writeU29_sExtends _ _ _) (writeDouble_sExtends _ _ _))

/-- Every serializer activation only extends the state. -/
theorem serRun_sExtends : ∀ (f : Nat) (op : SOp) (s : SState), SExtends s (serRun f op s) := by
  intro f
  induction f with
  | zero =>
    intro op s
    exact ⟨⟨[], by simp [serRun]⟩, ⟨[], by simp [serRun]⟩, rfl⟩
  | succ f ih =>
    intro op s
    rcases op with v | xs | xs | ⟨id, props⟩ | ps
    · rcases v with _ | _ | b | i | b | t | xs | ⟨id, props⟩ | ms <;>
        simp only [serRun]
      · exact writeU8_sExtends _ _
      · exact writeU8_sExtends _ _
      · exact writeU8_sExtends _ _
      · exact writeNumber_sExtends _ _ _
      · exact writeNumber_sExtends _ _ _
      · exact writeUTF8_sExtends _ _ _
      · exact ih _ _
      · exact ih _ _
      · exact writeDate_sExtends _ _
    · simp only [serRun]
      refine sExtends_trans ?_ (ih _ _)
      exact sExtends_trans (writeU8_sExtends 9 s)
        (sExtends_trans (writeU29_sExtends _ _ _) (writeUTF8_sExtends _ _ _))
    · rcases xs with _ | ⟨v, vs⟩
      · exact sExtends_refl _
      · simp only [serRun]
        exact sExtends_trans (ih _ _) (ih _ _)
    · simp only [serRun]
      split
      · exact sExtends_trans (writeU8_sExtends 10 s) (writeU29_sExtends _ _ _)
      · refine sExtends_trans (writeU8_sExtends 10 s) ?_
        have hmid : SExtends (writeU8 10 s)
            { writeU8 10 s with objRefs := (writeU8 10 s).objRefs ++ [id] } :=
          ⟨⟨[], by simp⟩, ⟨[id], rfl⟩, rfl⟩
        refine sExtends_trans hmid ?_
        exact sExtends_trans (writeU29_sExtends _ _ _)
          (sExtends_trans (writeUTF8_sExtends _ _ _)
            (sExtends_trans (ih _ _) (writeUTF8_sExtends _ _ _)))
    · rcases ps with _ | ⟨⟨k, v⟩, rest⟩
      · exact sExtends_refl _
      · simp only [serRun]
        exact sExtends_trans (writeUTF8_sExtends k false s)
          (sExtends_trans (ih _ _) (ih _ _))

/-- A repeated identity emits exactly the Object marker followed by the
U29 back-reference `(index << 1)` — nothing else, and the table is
unchanged. -/
theorem writeObject_backref (f : Nat) (id : Nat) (props : List (List Nat × Value))
    (s : SState) (h : id ∈ s.objRefs) :
    writeObject (f + 1) id props s =
      writeU29 (2 * (s.objRefs.indexOf id : Int)) false (writeU8 10 s) := by
  simp only [writeObject, serRun, writeU8]
  rw [if_pos h]

/-- A first encounter appends the identity to the table — its assigned
index is the prior table size, so indices count up from zero — and the
table afterwards extends `s.objRefs ++ [id]`. -/
theorem writeObject_first (f : Nat) (id : Nat) (props : List (List Nat × Value))
    (s : SState) (h : id ∉ s.objRefs) :
    (∃ t, (writeObject (f + 1) id props s).objRefs = (s.objRefs ++ [id]) ++ t) ∧
      (s.objRefs ++ [id]).indexOf id = s.objRefs.length := by
  constructor
  · simp only [writeObject, serRun, writeU8]
    rw [if_neg h]
    have hrest := sExtends_trans (writeU29_sExtends 11 false
        { s with buf := s.buf ++ [10 % 256], objRefs := s.objRefs ++ [id] })
      (sExtends_trans (writeUTF8_sExtends (classNameOf props) false _)
        (sExtends_trans (serRun_sExtends f (.propsLoop props) _)
          (writeUTF8_sExtends [] false _)))
    obtain ⟨_, ⟨t, ht⟩, _⟩ := hrest
    exact ⟨t, by simpa using ht⟩
  · rw [List.indexOf_append_of_not_mem h, List.indexOf_cons_self]
    simp

/-! ## Claim C6: encoder object back-references, and what the decoder
does with them

The encoder's behaviour matches the claim: a repeated identity emits
only the `0x0A` marker and the U29 back-reference, first encounters are
assigned indices from zero, and `encode(Array([o, o]))` emits the body
once and then `0A 00`.  The *decode* half of the claim fails: the
decoder's `objRefs_` also records arrays (and dates), so the encoder's
index `0` resolves to the enclosing array's table slot, whose stored tag
is even — `readObjectWithFlag` records "Fatal error - obect reference
flag passed to readObjectWithFlag" and produces an empty object, not a
copy of the shared one. -/

/-- C6: the code evaluated at the failing input.  With `o` the object
`{a: Integer(1)}` (identity 7), `encode(Array([o, o]))` emits the body
once and then the back-reference `0A 00`; decoding that very output
yields `Array([{a: 1}, {}])` with a pending "Fatal error" — the second
object is *not* structurally equal to the first — whereas an object
container (`{x: o, y: o}`, encoder indices aligned with the decoder's
table) decodes without error into two structurally equal copies. -/
theorem c6_array_backref_decode_fails :
    (serialize 10 false (.arr [.obj 7 [], .obj 7 []])).buf =
      [0x09, 0x05, 0x01, 0x0A, 0x0B, 0x0D, 0x4F, 0x62, 0x6A, 0x65, 0x63, 0x74,
        0x01, 0x0A, 0x00] ∧
    (serialize 10 false (.arr [.obj 7 [([0x61], .int 1)], .obj 7 [([0x61], .int 1)]])).buf =
      [0x09, 0x05, 0x01, 0x0A, 0x0B, 0x0D, 0x4F, 0x62, 0x6A, 0x65, 0x63, 0x74,
        0x03, 0x61, 0x04, 0x01, 0x01, 0x0A, 0x00] ∧
    (deserialize 16 false
        [0x09, 0x05, 0x01, 0x0A, 0x0B, 0x0D, 0x4F, 0x62, 0x6A, 0x65, 0x63, 0x74,
          0x03, 0x61, 0x04, 0x01, 0x01, 0x0A, 0x00]).1 =
      .arr [.obj 0 [([0x61], .int 1)], .obj 0 []] ∧
    (deserialize 16 false
        [0x09, 0x05, 0x01, 0x0A, 0x0B, 0x0D, 0x4F, 0x62, 0x6A, 0x65, 0x63, 0x74,
          0x03, 0x61, 0x04, 0x01, 0x01, 0x0A, 0x00]).2.2.err = some .badFlag ∧
    Value.obj 0 [([0x61], .int 1)] ≠ Value.obj 0 [] ∧
    (deserialize 16 false (serialize 12 false
        (.obj 1 [([0x78], .obj 2 [([0x61], .int 1)]),
                 ([0x79], .obj 2 [([0x61], .int 1)])])).buf).1 =
      .obj 0 [([0x78], .obj 0 [([0x61], .int 1)]), ([0x79], .obj 0 [([0x61], .int 1)])] ∧
    (deserialize 16 false (serialize 12 false
        (.obj 1 [([0x78], .obj 2 [([0x61], .int 1)]),
                 ([0x79], .obj 2 [([0x61], .int 1)])])).buf).2.2.err = none := by
  refine ⟨rfl, rfl, rfl, rfl, by simp, rfl, rfl⟩

/-! ## Claim C8: the string-interning discipline

`readUTF8` interns exactly as the claim states for non-negative tags:
length-0 inline strings are returned without interning, non-empty ones
are appended (as a captured region) before being returned, and a
back-reference materializes the stored entry without re-interning,
failing with `BadStringRef` when out of range.  But `readInt29`
sign-extends, so a crafted stream can deliver a *negative* inline
length: `len == 0` is false, and `copy(len)` with a negative length
returns the region unchanged — whose remaining length is zero when the
tag ends exactly at the region's end (reachable via a date slot
re-parsed through an array back-reference).  `string_refs` then holds
an entry that materializes as the empty string.  The decode that
reaches this state does not finish: `Nan::New<String>(str, -1)` builds
the NUL-terminated key from the raw buffer, so the associative loop
runs on, recording unsupported-marker and truncation errors and never
terminating (the fueled run stops with `outOfFuel`), while the string
table no longer changes. -/

/-- `Region::copy(-1)` (a negative length) duplicates the region
unchanged. -/
theorem copy_neg_one (r : Region) : r.copy (-1) = r := by
  simp [Region.copy]

/-- C8, counterexample: decoding
`09 07 01  08 01 05 61 62 01 FF FF FF FF  09 02  06 02`
(an array of a Date and an array back-reference into the Date's
captured table slot) reaches the sign-extended inline tag
`FF FF FF FF` (`n = -1`, so `len = -1 ≠ 0`) at the end of the captured
slot and appends that zero-remaining-length region to `strRefs_`.  The
associative loop then continues on the NUL-terminated key and never
terminates, so the fueled run ends with `outOfFuel`; the table is
already stable — remaining lengths `[2, 0]` at fuel `30` and `100`
alike — and the code's own back-reference materialization of entry `1`
(string tag `02`) returns the empty string, changing nothing: so
"string_refs never contains the empty string" fails mid-decode. -/
theorem c8_counterexample_empty_entry :
    ((deserialize 30 false
        [0x09, 0x07, 0x01, 0x08, 0x01, 0x05, 0x61, 0x62, 0x01, 0xFF, 0xFF, 0xFF, 0xFF,
          0x09, 0x02, 0x06, 0x02]).2.2.strRefs.map Region.remainingLength) = [2, 0] ∧
    ((deserialize 100 false
        [0x09, 0x07, 0x01, 0x08, 0x01, 0x05, 0x61, 0x62, 0x01, 0xFF, 0xFF, 0xFF, 0xFF,
          0x09, 0x02, 0x06, 0x02]).2.2.strRefs.map Region.remainingLength) = [2, 0] ∧
    (deserialize 30 false
        [0x09, 0x07, 0x01, 0x08, 0x01, 0x05, 0x61, 0x62, 0x01, 0xFF, 0xFF, 0xFF, 0xFF,
          0x09, 0x02, 0x06, 0x02]).2.2.err = some .outOfFuel ∧
    (readUTF8 { bytes := [0x02], start := 0, curr := 0, endPos := 1, bigEndian := false }
        (deserialize 30 false
          [0x09, 0x07, 0x01, 0x08, 0x01, 0x05, 0x61, 0x62, 0x01, 0xFF, 0xFF, 0xFF, 0xFF,
            0x09, 0x02, 0x06, 0x02]).2.2).2.2 = [] ∧
    (readUTF8 { bytes := [0x02], start := 0, curr := 0, endPos := 1, bigEndian := false }
        (deserialize 30 false
          [0x09, 0x07, 0x01, 0x08, 0x01, 0x05, 0x61, 0x62, 0x01, 0xFF, 0xFF, 0xFF, 0xFF,
            0x09, 0x02, 0x06, 0x02]).2.2).2.1 =
      (deserialize 30 false
        [0x09, 0x07, 0x01, 0x08, 0x01, 0x05, 0x61, 0x62, 0x01, 0xFF, 0xFF, 0xFF, 0xFF,
          0x09, 0x02, 0x06, 0x02]).2.2 := by
  refine ⟨rfl, rfl, rfl, rfl, rfl⟩

set_option maxHeartbeats 1000000 in
/-- C8, amended: the interning discipline of `readUTF8`, conditioned on
the U29 tag it reads.  (i) An inline tag of length `0` yields the empty
string without touching the table.  (ii) An inline tag of non-zero
length appends exactly the captured region to `strRefs_` (before the
string is read); when the length is positive, that entry's remaining
length is the (non-zero) length.  (iii) A back-reference leaves the
table unchanged; in range it yields the stored entry's remaining bytes
(for the non-negative remaining lengths the code itself stores) with
the error state untouched, out of range it records `BadStringRef`.
Only a crafted negative inline length (possible because `readInt29`
sign-extends) can intern a zero-remaining-length entry. -/
theorem c8_interning_discipline :
    (∀ (r : Region) (ds : DState) (r1 : Region) (n : Int),
        r.readInt29 = (r1, some n) → n.emod 2 = 1 → n.fdiv 2 = 0 →
        readUTF8 r ds = (r1, ds, [])) ∧
    (∀ (r : Region) (ds : DState) (r1 : Region) (n : Int),
        r.readInt29 = (r1, some n) → n.emod 2 = 1 → n.fdiv 2 ≠ 0 →
        (readUTF8 r ds).2.1.strRefs = ds.strRefs ++ [r1.copy (n.fdiv 2)] ∧
          (0 < n.fdiv 2 → (r1.copy (n.fdiv 2)).remainingLength = n.fdiv 2)) ∧
    (∀ (r : Region) (ds : DState) (r1 : Region) (n : Int),
        r.readInt29 = (r1, some n) → n.emod 2 = 0 →
        (readUTF8 r ds).2.1.strRefs = ds.strRefs ∧
        (∀ h : ((n.fdiv 2).emod (2 ^ 32)).toNat < ds.strRefs.length,
          (0 ≤ (ds.strRefs.get ⟨((n.fdiv 2).emod (2 ^ 32)).toNat, h⟩).remainingLength →
            (readUTF8 r ds).2.2 =
              ((ds.strRefs.get ⟨((n.fdiv 2).emod (2 ^ 32)).toNat, h⟩).bytes.drop
                (ds.strRefs.get ⟨((n.fdiv 2).emod (2 ^ 32)).toNat, h⟩).curr.toNat).take
                (ds.strRefs.get
                  ⟨((n.fdiv 2).emod (2 ^ 32)).toNat, h⟩).remainingLength.toNat) ∧
          (readUTF8 r ds).2.1.err = ds.err) ∧
        (ds.strRefs.length ≤ ((n.fdiv 2).emod (2 ^ 32)).toNat →
          (readUTF8 r ds).2.1.err = some .badStringRef)) := by
  refine ⟨?_, ?_, ?_⟩
  · intro r ds r1 n h hodd hzero
    simp only [readUTF8, h, readUTF8core]
    rw [if_pos hodd, if_pos hzero]
  · intro r ds r1 n h hodd hnz
    simp only [readUTF8, h, readUTF8core]
    rw [if_pos hodd, if_neg hnz]
    constructor
    · simp only [toStringR, DState.fail]
      split <;> rfl
    · intro hpos
      simp only [Region.copy, if_pos (le_of_lt hpos), Region.remainingLength]
      omega
  · intro r ds r1 n h heven
    have hodd : ¬(n.emod 2 = 1) := by omega
    simp only [readUTF8, h, readUTF8core]
    rw [if_neg hodd]
    refine ⟨?_, ?_, ?_⟩
    · split
      · simp only [toStringR, DState.fail]
        split <;> rfl
      · rfl
    · intro hlt
      rw [dif_pos hlt, copy_neg_one]
      constructor
      · intro hnn
        have hcond : ¬((ds.strRefs.get ⟨((n.fdiv 2).emod (2 ^ 32)).toNat, hlt⟩).remainingLength
            < 0) := not_lt.mpr hnn
        simp [toStringR, Region.read, Region.slice, Region.remainingLength, hcond]
        intro hx
        exfalso
        simp only [Region.remainingLength, List.get_eq_getElem] at hnn
        simp at hnn
        omega
      · simp only [toStringR, Region.read, Region.remainingLength, DState.fail,
          decide_eq_true_eq]
        split
        · rfl
        · exfalso
          omega
    · intro hge
      rw [dif_neg (by omega)]
      rfl

/-- C8 witness: the inline-string leg at a concrete input — reading the
tag `05` (`"ab"`, length 2) interns exactly the captured 2-byte
region. -/
theorem c8_witness :
    (readUTF8 { bytes := [0x05, 0x61, 0x62], start := 0, curr := 0, endPos := 3,
                bigEndian := false } initD).2.1.strRefs =
      initD.strRefs ++
        [({ bytes := [0x05, 0x61, 0x62], start := 0, curr := 1, endPos := 3,
            bigEndian := false } : Region).copy ((5 : Int).fdiv 2)] :=
  (c8_interning_discipline.2.1
    { bytes := [0x05, 0x61, 0x62], start := 0, curr := 0, endPos := 3, bigEndian := false }
    initD
    { bytes := [0x05, 0x61, 0x62], start := 0, curr := 1, endPos := 3, bigEndian := false }
    5 (by decide) (by decide) (by decide)).1

/-! ## Claim C9: array round-trip for object-free values -/

/-- The byte list `o` lies in the buffer `B` at (non-negative) offset
`c`. -/
def SegAt (B : List Nat) (c : Int) (o : List Nat) : Prop :=
  0 ≤ c ∧ (B.drop c.toNat).take o.length = o

/-- Splitting a `take` of a concatenation at the first part's length. -/
theorem take_split (X : List Nat) (o1 o2 : List Nat)
    (h : X.take (o1.length + o2.length) = o1 ++ o2) :
    X.take o1.length = o1 ∧ (X.drop o1.length).take o2.length = o2 := by
  have hlen : o1.length + o2.length ≤ X.length := by
    have h2 := congrArg List.length h
    simp only [List.length_take, List.length_append] at h2
    omega
  have htake : X.take (o1.length + o2.length)
      = X.take o1.length ++ (X.drop o1.length).take o2.length := List.take_add X _ _
  rw [htake] at h
  have h1 : (X.take o1.length).length = o1.length := by
    simp only [List.length_take]
    omega
  exact List.append_inj h h1

/-- A segment of a concatenation splits into consecutive segments. -/
theorem segAt_append {B : List Nat} {c : Int} {o1 o2 : List Nat}
    (h : SegAt B c (o1 ++ o2)) :
    SegAt B c o1 ∧ SegAt B (c + o1.length) o2 := by
  obtain ⟨hc, hseg⟩ := h
  rw [List.length_append] at hseg
  obtain ⟨h1, h2⟩ := take_split _ _ _ hseg
  refine ⟨⟨hc, h1⟩, ⟨by omega, ?_⟩⟩
  have hd : (c + (o1.length : Int)).toNat = c.toNat + o1.length := by omega
  rw [hd, ← List.drop_drop]
  exact h2

/-- The first byte at the cursor, in the decoder's `head?` form. -/
theorem head?_take_drop (B : List Nat) (m : Nat) :
    ((B.drop m).take 1).head?.getD 0 = B[m]?.getD 0 := by
  rw [← List.headD_eq_head?, ← List.getD_eq_getElem?_getD]
  exact headD_take_drop B m

/-- The first byte of a segment, as `getD` delivers it. -/
theorem segAt_head {B : List Nat} {c : Int} {b : Nat} {o : List Nat}
    (h : SegAt B c (b :: o)) :
    B[c.toNat]?.getD 0 = b := by
  obtain ⟨hc, hseg⟩ := h
  have h1 : ((B.drop c.toNat).take 1).headD 0 = B[c.toNat]?.getD 0 := by
    rw [← List.getD_eq_getElem?_getD]
    exact headD_take_drop B c.toNat
  have h2 : (B.drop c.toNat).take (1 + o.length) = [b] ++ o := by
    simpa [Nat.add_comm] using hseg
  have h3 := take_split (B.drop c.toNat) [b] o (by simpa using h2)
  have h4 : (B.drop c.toNat).take 1 = [b] := by simpa using h3.1
  rw [h4] at h1
  exact h1.symm

/-- Dropping the first byte of a segment. -/
theorem segAt_tail {B : List Nat} {c : Int} {b : Nat} {o : List Nat}
    (h : SegAt B c (b :: o)) :
    SegAt B (c + 1) o := by
  have h' : SegAt B c ([b] ++ o) := by simpa using h
  have h2 := (segAt_append h').2
  simpa using h2

/-- `u29Loop` stops immediately below `0x80`. -/
theorem u29Loop_stop (f n : Nat) (h : n < 0x80) : u29Loop f n = [] := by
  cases f with
  | zero => rfl
  | succ f => rw [u29Loop, if_neg (by omega)]

/-- `toNat` of `emod` on cast naturals. -/
theorem emod_toNat (m k : Nat) : (((m : Int)).emod (k : Int)).toNat = m % k := rfl

/-- `writeU29bytes` on `[0, 0x80)`: one byte, the value itself. -/
theorem writeU29bytes_one {n : Int} (h0 : 0 ≤ n) (h1 : n < 0x80) :
    writeU29bytes n = [n.toNat] := by
  obtain ⟨m, rfl⟩ : ∃ m : Nat, n = (m : Int) := ⟨n.toNat, (Int.toNat_of_nonneg h0).symm⟩
  rw [Int.toNat_natCast, writeU29bytes, if_pos (by omega),
    u29Loop_stop 10 ((m : Int)).toNat (by omega)]
  have he : (((m : Int)).emod 128).toNat = m % 128 := emod_toNat m 128
  rw [he]
  have hm : m % 128 = m := by omega
  rw [hm]
  rfl

/-- `writeU29bytes` on `[0x80, 0x4000)`: two bytes, high then low. -/
theorem writeU29bytes_two {n : Int} (h0 : 0x80 ≤ n) (h1 : n < 0x4000) :
    writeU29bytes n = [128 + n.toNat / 128, n.toNat % 128] := by
  obtain ⟨m, rfl⟩ : ∃ m : Nat, n = (m : Int) :=
    ⟨n.toNat, (Int.toNat_of_nonneg (by omega)).symm⟩
  rw [Int.toNat_natCast, writeU29bytes, if_pos (by omega), Int.toNat_natCast]
  rw [u29Loop, if_pos (by omega), u29Loop_stop 9 (m / 128) (by omega)]
  have he : (((m : Int)).emod 128).toNat = m % 128 := emod_toNat m 128
  rw [he]
  have hm : m / 128 % 128 = m / 128 := by omega
  rw [hm]
  rfl

/-- `writeU29bytes` on `[0x4000, 0x200000)`: three bytes. -/
theorem writeU29bytes_three {n : Int} (h0 : 0x4000 ≤ n) (h1 : n < 0x200000) :
    writeU29bytes n = [128 + n.toNat / 16384, 128 + n.toNat / 128 % 128, n.toNat % 128] := by
  obtain ⟨m, rfl⟩ : ∃ m : Nat, n = (m : Int) :=
    ⟨n.toNat, (Int.toNat_of_nonneg (by omega)).symm⟩
  rw [Int.toNat_natCast, writeU29bytes, if_pos (by omega), Int.toNat_natCast]
  rw [u29Loop, if_pos (by omega), u29Loop, if_pos (by omega),
    u29Loop_stop 8 (m / 128 / 128) (by omega)]
  have he : (((m : Int)).emod 128).toNat = m % 128 := emod_toNat m 128
  rw [he]
  have hm : m / 128 / 128 % 128 = m / 16384 := by omega
  rw [hm]
  rfl

/-- All bytes emitted by `writeU29bytes` on `[0, 0x200000)` are bytes. -/
theorem writeU29bytes_lt {n : Int} (h0 : 0 ≤ n) (h1 : n < 0x200000) :
    ∀ b ∈ writeU29bytes n, b < 256 := by
  intro b hb
  obtain ⟨k, rfl⟩ : ∃ k : Nat, n = (k : Int) := ⟨n.toNat, (Int.toNat_of_nonneg h0).symm⟩
  rcases lt_or_ge (k : Int) 0x80 with h | h
  · rw [writeU29bytes_one h0 h] at hb
    simp only [Int.toNat_natCast, List.mem_cons, List.not_mem_nil, or_false] at hb
    omega
  · rcases lt_or_ge (k : Int) 0x4000 with h2 | h2
    · rw [writeU29bytes_two h h2] at hb
      simp only [Int.toNat_natCast, List.mem_cons, List.not_mem_nil, or_false] at hb
      have hk : k < 0x4000 := by omega
      rcases hb with rfl | rfl <;> omega
    · rw [writeU29bytes_three h2 h1] at hb
      simp only [Int.toNat_natCast, List.mem_cons, List.not_mem_nil, or_false] at hb
      have hk : k < 0x200000 := by omega
      rcases hb with rfl | rfl | rfl <;> omega

/-- A value below a power of two has a zero bit there. -/
theorem and_pow_lt {m k : Nat} (h : m < 2 ^ k) : m &&& 2 ^ k = 0 := by
  rw [Nat.and_two_pow]
  have hb : m.testBit k = false := Nat.testBit_eq_false_of_lt h
  simp [hb]

/-- Sub-128 bytes fail the continuation test. -/
theorem and_80_zero {m : Nat} (h : m < 128) : m &&& 0x80 = 0 := by
  have h128 : (0x80 : Nat) = 2 ^ 7 := by norm_num
  rw [h128]
  exact and_pow_lt (by omega)

/-- Values below `2^28` are unchanged by the sign test. -/
theorem and_28_zero {m : Nat} (h : m < 2 ^ 28) : m &&& 0x10000000 = 0 := by
  have h28 : (0x10000000 : Nat) = 2 ^ 28 := by norm_num
  rw [h28]
  exact and_pow_lt h

/-- `readInt29` at a one-byte encoding. -/
theorem readInt29_at_one (B : List Nat) (st c e : Int) (be : Bool) (m : Nat)
    (hm : m < 0x80) (hc : 0 ≤ c) (he : c + 1 ≤ e)
    (hb : B[c.toNat]?.getD 0 = m) :
    Region.readInt29 { bytes := B, start := st, curr := c, endPos := e, bigEndian := be } =
      ({ bytes := B, start := st, curr := c + 1, endPos := e, bigEndian := be },
        some (m : Int)) := by
  have hok : decide (c + 1 ≤ e) = true := decide_eq_true he
  have h80 : m &&& 0x80 = 0 := and_80_zero (by omega)
  have h7f : m &&& 0x7F = m := by rw [and_7F_eq_mod]; omega
  have h28 : m &&& 0x10000000 = 0 := and_28_zero (by omega)
  simp [Region.readInt29, Region.read, Region.slice, Int.toNat_one, head?_take_drop,
    headD_take_drop, hb, hok, h80, h7f, h28, Nat.zero_shiftLeft, Nat.zero_or]

/-- `readInt29` at a two-byte encoding. -/
theorem readInt29_at_two (B : List Nat) (st c e : Int) (be : Bool) (m : Nat)
    (hm0 : 0x80 ≤ m) (hm : m < 0x4000) (hc : 0 ≤ c) (he : c + 2 ≤ e)
    (hb0 : B[c.toNat]?.getD 0 = 128 + m / 128)
    (hb1 : B[(c + 1).toNat]?.getD 0 = m % 128) :
    Region.readInt29 { bytes := B, start := st, curr := c, endPos := e, bigEndian := be } =
      ({ bytes := B, start := st, curr := c + 2, endPos := e, bigEndian := be },
        some (m : Int)) := by
  have hok1 : decide (c + 1 ≤ e) = true := decide_eq_true (by omega)
  have hok2 : decide (c + 1 + 1 ≤ e) = true := decide_eq_true (by omega)
  have hlt2 : ¬ e < c + 1 + 1 := by omega
  have hhi : (128 + m / 128) &&& 0x80 ≠ 0 :=
    (and_80_ne_zero_iff (128 + m / 128) (by omega)).mpr (by omega)
  have h1 : (128 + m / 128) &&& 0x7F = m / 128 := by rw [and_7F_eq_mod]; omega
  have h2 : m % 128 &&& 0x7F = m % 128 := by rw [and_7F_eq_mod]; omega
  have h80 : m % 128 &&& 0x80 = 0 := and_80_zero (by omega)
  have hor : (m / 128) <<< 7 ||| m % 128 = m := by
    rw [or_shift_eq_add 7 (m / 128) (m % 128) (by omega)]
    omega
  have h28 : m &&& 0x10000000 = 0 := and_28_zero (by omega)
  simp [Region.readInt29, Region.read, Region.slice, Int.toNat_one, head?_take_drop,
    headD_take_drop, hb0, hb1, hok1, hok2, hlt2, hhi, h1, h2, h80, hor, h28]
  omega

/-- `readInt29` at a three-byte encoding. -/
theorem readInt29_at_three (B : List Nat) (st c e : Int) (be : Bool) (m : Nat)
    (hm0 : 0x4000 ≤ m) (hm : m < 0x200000) (hc : 0 ≤ c) (he : c + 3 ≤ e)
    (hb0 : B[c.toNat]?.getD 0 = 128 + m / 16384)
    (hb1 : B[(c + 1).toNat]?.getD 0 = 128 + m / 128 % 128)
    (hb2 : B[(c + 1 + 1).toNat]?.getD 0 = m % 128) :
    Region.readInt29 { bytes := B, start := st, curr := c, endPos := e, bigEndian := be } =
      ({ bytes := B, start := st, curr := c + 3, endPos := e, bigEndian := be },
        some (m : Int)) := by
  have hok1 : decide (c + 1 ≤ e) = true := decide_eq_true (by omega)
  have hok2 : decide (c + 1 + 1 ≤ e) = true := decide_eq_true (by omega)
  have hok3 : decide (c + 1 + 1 + 1 ≤ e) = true := decide_eq_true (by omega)
  have hlt2 : ¬ e < c + 1 + 1 := by omega
  have hlt3 : ¬ e < c + 1 + 1 + 1 := by omega
  have hhi0 : (128 + m / 16384) &&& 0x80 ≠ 0 :=
    (and_80_ne_zero_iff (128 + m / 16384) (by omega)).mpr (by omega)
  have hhi1 : (128 + m / 128 % 128) &&& 0x80 ≠ 0 :=
    (and_80_ne_zero_iff (128 + m / 128 % 128) (by omega)).mpr (by omega)
  have h1 : (128 + m / 16384) &&& 0x7F = m / 16384 := by rw [and_7F_eq_mod]; omega
  have h2 : (128 + m / 128 % 128) &&& 0x7F = m / 128 % 128 := by rw [and_7F_eq_mod]; omega
  have h3 : m % 128 &&& 0x7F = m % 128 := by rw [and_7F_eq_mod]; omega
  have h80 : m % 128 &&& 0x80 = 0 := and_80_zero (by omega)
  have hor1 : (m / 16384) <<< 7 ||| m / 128 % 128 = m / 128 := by
    rw [or_shift_eq_add 7 (m / 16384) (m / 128 % 128) (by omega)]
    omega
  have hor2 : (m / 128) <<< 7 ||| m % 128 = m := by
    rw [or_shift_eq_add 7 (m / 128) (m % 128) (by omega)]
    omega
  have h28 : m &&& 0x10000000 = 0 := and_28_zero (by omega)
  simp [Region.readInt29, Region.read, Region.slice, Int.toNat_one, head?_take_drop,
    headD_take_drop, hb0, hb1, hb2, hok1, hok2, hok3, hlt2, hlt3, hhi0, hhi1,
    h1, h2, h3, h80, hor1, hor2, h28]
  omega

/-- `readInt29` reads back exactly what `writeU29bytes` emitted, for any
value in `[0, 0x200000)`. -/
theorem readInt29_seg (B : List Nat) (st c e : Int) (be : Bool) (n : Int)
    (h0 : 0 ≤ n) (h1 : n < 0x200000)
    (hseg : SegAt B c (writeU29bytes n))
    (he : c + (writeU29bytes n).length ≤ e) :
    Region.readInt29 { bytes := B, start := st, curr := c, endPos := e, bigEndian := be } =
      ({ bytes := B, start := st, curr := c + (writeU29bytes n).length, endPos := e,
          bigEndian := be }, some n) := by
  rcases lt_or_ge n 0x80 with h | h
  · rw [writeU29bytes_one h0 h] at hseg he ⊢
    have hb := segAt_head hseg
    have hr := readInt29_at_one B st c e be n.toNat (by omega) hseg.1
      (by simpa using he) hb
    simpa [Int.toNat_of_nonneg h0] using hr
  · rcases lt_or_ge n 0x4000 with h2 | h2
    · rw [writeU29bytes_two h h2] at hseg he ⊢
      have hb0 := segAt_head hseg
      have hb1 := segAt_head (segAt_tail hseg)
      have hr := readInt29_at_two B st c e be n.toNat (by omega) (by omega) hseg.1
        (by simp at he; omega) hb0 hb1
      have hlen : (([128 + n.toNat / 128, n.toNat % 128] : List Nat).length : Int) = 2 := by
        simp
      rw [hlen]
      simpa [Int.toNat_of_nonneg h0] using hr
    · rw [writeU29bytes_three h2 h1] at hseg he ⊢
      have hb0 := segAt_head hseg
      have hb1 := segAt_head (segAt_tail hseg)
      have hb2 := segAt_head (segAt_tail (segAt_tail hseg))
      have hr := readInt29_at_three B st c e be n.toNat (by omega) (by omega) hseg.1
        (by simp at he; omega) hb0 hb1 hb2
      have hlen : (([128 + n.toNat / 16384, 128 + n.toNat / 128 % 128,
          n.toNat % 128] : List Nat).length : Int) = 3 := by simp
      rw [hlen]
      simpa [Int.toNat_of_nonneg h0] using hr

/-- Truncating a list of bytes to bytes is the identity. -/
theorem map_mod_eq_self {bs : List Nat} (h : ∀ b ∈ bs, b < 256) :
    bs.map (· % 256) = bs := by
  induction bs with
  | nil => rfl
  | cons b t ih =>
    simp only [List.map_cons, List.cons.injEq]
    exact ⟨Nat.mod_eq_of_lt (h b (by simp)), ih fun x hx => h x (by simp [hx])⟩

/-- `writeU8` emits its byte. -/
theorem writeU8_emits (n : Nat) (s : SState) (h : n < 256) :
    writeU8 n s = { s with buf := s.buf ++ [n] } := by
  simp [writeU8, Nat.mod_eq_of_lt h]

/-- `writeBytes` appends its bytes. -/
theorem writeBytes_emits (bs : List Nat) (s : SState) (h : ∀ b ∈ bs, b < 256) :
    writeBytes bs s = { s with buf := s.buf ++ bs } := by
  simp [writeBytes, map_mod_eq_self h]

/-- `writeU29` for an in-range value emits the optional Integer marker
and the `writeU29bytes`, and changes nothing else. -/
theorem writeU29_emits (n : Int) (marker : Bool) (s : SState) (h0 : 0 ≤ n)
    (h1 : n < 0x200000) :
    writeU29 n marker s =
      { s with buf := s.buf ++ (if marker then [4] else []) ++ writeU29bytes n } := by
  have hneg : decide (n < 0) = false := decide_eq_false (by omega)
  cases marker with
  | false =>
    simp [writeU29, hneg, writeBytes_emits _ _ (writeU29bytes_lt h0 h1)]
  | true =>
    simp [writeU29, hneg, writeU8, writeBytes_emits _ _ (writeU29bytes_lt h0 h1),
      List.append_assoc]

/-- `writeUTF8` emits the optional String marker, the length tag and the
bytes. -/
theorem writeUTF8_emits (t : List Nat) (marker : Bool) (s : SState)
    (hlen : t.length < 0x100000) (hb : ∀ b ∈ t, b < 256) :
    writeUTF8 t marker s =
      { s with buf := s.buf ++ (if marker then [6] else []) ++
          writeU29bytes (2 * t.length + 1) ++ t } := by
  have h0 : (0 : Int) ≤ 2 * t.length + 1 := by omega
  have h1 : (2 * (t.length : Int) + 1) < 0x200000 := by omega
  cases marker with
  | false =>
    have hu : writeUTF8 t false s =
        writeBytes t (writeU29 (2 * (t.length : Int) + 1) false s) := rfl
    rw [hu, writeU29_emits _ false _ h0 h1, writeBytes_emits _ _ hb]
    dsimp only
    simp only [Bool.false_eq_true, reduceIte, if_false, List.append_nil,
      List.nil_append, List.append_assoc]
  | true =>
    have hu : writeUTF8 t true s =
        writeBytes t (writeU29 (2 * (t.length : Int) + 1) false (writeU8 6 s)) := rfl
    rw [hu, writeU8_emits 6 s (by omega), writeU29_emits _ false _ h0 h1,
      writeBytes_emits _ _ hb]
    dsimp only
    simp only [Bool.false_eq_true, reduceIte, if_false, List.append_nil,
      List.nil_append, List.append_assoc]

/-- `writeDouble` of a non-NaN double on a little-endian host emits the
optional marker and the eight big-endian bytes. -/
theorem writeDouble_emits (b : List Nat) (marker : Bool) (s : SState)
    (hn : F64.isNaN b = false) (hb : ∀ x ∈ b, x < 256) (hbe : s.bigEndian = false) :
    writeDouble b marker s =
      { s with buf := s.buf ++ (if marker then [5] else []) ++ b } := by
  cases marker with
  | false =>
    simp [writeDouble, hn, hbe, List.reverse_reverse, writeBytes_emits _ _ hb]
  | true =>
    simp [writeDouble, writeU8, hn, hbe, List.reverse_reverse,
      writeBytes_emits _ _ hb, List.append_assoc]

/-- `writeU29bytes 1 = [1]`. -/
theorem writeU29bytes_one_tag : writeU29bytes 1 = [1] := by
  rw [writeU29bytes_one (by omega) (by omega)]
  rfl

/-- `writeDate` emits the Date marker, the inline tag `1`, and the
milliseconds double. -/
theorem writeDate_emits (ms : List Nat) (s : SState) (hn : F64.isNaN ms = false)
    (hb : ∀ x ∈ ms, x < 256) (hbe : s.bigEndian = false) :
    writeDate ms s = { s with buf := s.buf ++ 8 :: 1 :: ms } := by
  rw [writeDate, writeU8_emits 8 s (by omega),
    writeU29_emits 1 false _ (by omega) (by omega), writeU29bytes_one_tag,
    writeDouble_emits ms false _ hn hb (by simpa using hbe)]
  simp

/-- A little-endian region over buffer `B` with cursor `c` and end `e`
(the decoder's regions in the round-trip proofs below). -/
abbrev regLE (B : List Nat) (st c e : Int) : Region :=
  { bytes := B, start := st, curr := c, endPos := e, bigEndian := false }

/-- `readUInt8` at a valid cursor delivers the byte at the cursor. -/
theorem readUInt8_at (B : List Nat) (st c e : Int) (be : Bool)
    (hc : 0 ≤ c) (he : c + 1 ≤ e) :
    Region.readUInt8 { bytes := B, start := st, curr := c, endPos := e, bigEndian := be } =
      ({ bytes := B, start := st, curr := c + 1, endPos := e, bigEndian := be },
        some (B[c.toNat]?.getD 0)) := by
  have hok : decide (c + 1 ≤ e) = true := decide_eq_true he
  simp [Region.readUInt8, Region.read, Region.slice, Int.toNat_one, head?_take_drop,
    headD_take_drop, hok]

/-- `readDouble` over eight non-`ENCODED_NAN` bytes on a little-endian
host returns exactly those bytes. -/
theorem readDouble_at (B : List Nat) (st c e : Int) (d : List Nat)
    (hlen : d.length = 8) (hne : d ≠ encodedNaN)
    (hseg : SegAt B c d) (he : c + 8 ≤ e) :
    Region.readDouble (regLE B st c e) = (regLE B st (c + 8) e, some d) := by
  have hok : decide (c + 8 ≤ e) = true := decide_eq_true he
  have hsl : (B.drop c.toNat).take 8 = d := by
    rw [← hlen]
    exact hseg.2
  simp [Region.readDouble, Region.read, Region.slice, hok, hsl, hne,
    List.reverse_reverse]

/-- `readInteger` reads back a `writeU29bytes` encoding. -/
theorem readInteger_seg (B : List Nat) (st c e : Int) (ds : DState) (n : Int)
    (h0 : 0 ≤ n) (h1 : n < 0x200000)
    (hseg : SegAt B c (writeU29bytes n)) (he : c + (writeU29bytes n).length ≤ e) :
    readInteger (regLE B st c e) ds =
      (regLE B st (c + (writeU29bytes n).length) e, ds, .int n) := by
  simp [readInteger, readInt29_seg B st c e false n h0 h1 hseg he]

/-- `readDoubleV` reads back eight non-`ENCODED_NAN` bytes. -/
theorem readDoubleV_at (B : List Nat) (st c e : Int) (ds : DState) (d : List Nat)
    (hlen : d.length = 8) (hne : d ≠ encodedNaN)
    (hseg : SegAt B c d) (he : c + 8 ≤ e) :
    readDoubleV (regLE B st c e) ds = (regLE B st (c + 8) e, ds, .dbl d) := by
  simp [readDoubleV, readDouble_at B st c e d hlen hne hseg he]

/-- `readUTF8` at the empty-string tag `01` yields the empty string and
leaves the state untouched. -/
theorem readUTF8_empty_at (B : List Nat) (st c e : Int) (ds : DState)
    (hseg : SegAt B c [1]) (he : c + 1 ≤ e) :
    readUTF8 (regLE B st c e) ds = (regLE B st (c + 1) e, ds, []) := by
  have hI := readInt29_seg B st c e false 1 (by omega) (by omega)
    (by rw [writeU29bytes_one_tag]; exact hseg)
    (by rw [writeU29bytes_one_tag]; simpa using he)
  rw [writeU29bytes_one_tag] at hI
  simp only [List.length_cons, List.length_nil, Nat.cast_one, Nat.cast_zero,
    Nat.cast_ofNat, zero_add] at hI
  have hmod : (1 : Int).emod 2 = 1 := rfl
  have hfd : (1 : Int).fdiv 2 = 0 := rfl
  simp [readUTF8, hI, readUTF8core, hmod, hfd]

/-- `readUTF8` at an inline-string encoding yields the string, advances
exactly past it, and preserves the error state. -/
theorem readUTF8_seg (B : List Nat) (st c e : Int) (ds : DState) (t : List Nat)
    (hlen : t.length < 0x100000)
    (hseg : SegAt B c (writeU29bytes (2 * t.length + 1) ++ t))
    (he : c + (writeU29bytes (2 * t.length + 1)).length + t.length ≤ e) :
    (readUTF8 (regLE B st c e) ds).1 =
      regLE B st (c + (writeU29bytes (2 * t.length + 1)).length + t.length) e ∧
    (readUTF8 (regLE B st c e) ds).2.1.err = ds.err ∧
    (readUTF8 (regLE B st c e) ds).2.2 = t := by
  obtain ⟨hseg1, hseg2⟩ := segAt_append hseg
  have h0 : (0 : Int) ≤ 2 * t.length + 1 := by omega
  have h1 : (2 * (t.length : Int) + 1) < 0x200000 := by omega
  have hI := readInt29_seg B st c e false (2 * t.length + 1) h0 h1 hseg1 (by omega)
  have hmod : (2 * (t.length : Int) + 1).emod 2 = 1 := by
    have hm : (2 * (t.length : Int) + 1) % 2 = 1 := by omega
    exact hm
  have hfd : (2 * (t.length : Int) + 1).fdiv 2 = t.length := by
    rw [Int.fdiv_eq_ediv _ (by omega)]
    omega
  by_cases ht : (t.length : Int) = 0
  · have ht0 : t = [] := by
      cases t with
      | nil => rfl
      | cons b0 t' =>
        exfalso
        rw [List.length_cons] at ht
        push_cast at ht
        omega
    subst ht0
    have hr := readUTF8_empty_at B st c e ds
      (by simpa [writeU29bytes_one_tag] using hseg)
      (by simpa [writeU29bytes_one_tag] using he)
    refine ⟨?_, ?_, ?_⟩ <;> simp [hr, writeU29bytes_one_tag]
  · have hok : decide (c + ((writeU29bytes (2 * t.length + 1)).length : Int)
        + (t.length : Int) ≤ e) = true := decide_eq_true (by omega)
    have hneg : ¬((t.length : Int) < 0) := by omega
    refine ⟨?_, ?_, ?_⟩ <;>
      simp [readUTF8, hI, readUTF8core, hmod, hfd, ht, toStringR, Region.read,
        Region.slice, hok, hneg, hseg2.2, DState.fail]

/-- `writeU29` with the Integer marker, cons form. -/
theorem writeU29_emits_marker (n : Int) (s : SState) (h0 : 0 ≤ n) (h1 : n < 0x200000) :
    writeU29 n true s = { s with buf := s.buf ++ 4 :: writeU29bytes n } := by
  rw [writeU29_emits n true s h0 h1]
  simp [List.append_assoc]

/-- `writeU29` without marker, flat form. -/
theorem writeU29_emits_plain (n : Int) (s : SState) (h0 : 0 ≤ n) (h1 : n < 0x200000) :
    writeU29 n false s = { s with buf := s.buf ++ writeU29bytes n } := by
  rw [writeU29_emits n false s h0 h1]
  simp

/-- `writeUTF8` with the String marker, cons form. -/
theorem writeUTF8_emits_marker (t : List Nat) (s : SState)
    (hlen : t.length < 0x100000) (hb : ∀ b ∈ t, b < 256) :
    writeUTF8 t true s =
      { s with buf := s.buf ++ 6 :: (writeU29bytes (2 * t.length + 1) ++ t) } := by
  have h0 : (0 : Int) ≤ 2 * t.length + 1 := by omega
  have h1 : (2 * (t.length : Int) + 1) < 0x200000 := by omega
  have hu : writeUTF8 t true s =
      writeBytes t (writeU29 (2 * (t.length : Int) + 1) false (writeU8 6 s)) := rfl
  rw [hu, writeU8_emits 6 s (by omega), writeU29_emits_plain _ _ h0 h1,
    writeBytes_emits _ _ hb]
  generalize writeU29bytes (2 * (t.length : Int) + 1) = u
  rw [List.append_assoc, List.append_assoc]
  rfl

/-- `writeUTF8` without marker, flat form. -/
theorem writeUTF8_emits_plain (t : List Nat) (s : SState)
    (hlen : t.length < 0x100000) (hb : ∀ b ∈ t, b < 256) :
    writeUTF8 t false s =
      { s with buf := s.buf ++ (writeU29bytes (2 * t.length + 1) ++ t) } := by
  rw [writeUTF8_emits t false s hlen hb]
  simp [List.append_assoc]

/-- `writeDouble` with the Double marker, cons form. -/
theorem writeDouble_emits_marker (b : List Nat) (s : SState)
    (hn : F64.isNaN b = false) (hb : ∀ x ∈ b, x < 256) (hbe : s.bigEndian = false) :
    writeDouble b true s = { s with buf := s.buf ++ 5 :: b } := by
  rw [writeDouble_emits b true s hn hb hbe]
  simp [List.append_assoc]

/-- `readDate` at an inline date encoding (`tag 1` then the
milliseconds): yields the date, advances by nine bytes, preserves the
error state. -/
theorem readDate_seg (B : List Nat) (st c e : Int) (ds : DState) (d : List Nat)
    (hlen : d.length = 8) (hne : d ≠ encodedNaN)
    (hseg : SegAt B c (1 :: d)) (he : c + 9 ≤ e) :
    (readDate (regLE B st c e) ds).1 = regLE B st (c + 9) e ∧
    (readDate (regLE B st c e) ds).2.1.err = ds.err ∧
    (readDate (regLE B st c e) ds).2.2 = .date d := by
  have hs : SegAt B c ([1] ++ d) := by simpa using hseg
  obtain ⟨hs1, hs2⟩ := segAt_append hs
  have hI := readInt29_seg B st c e false 1 (by omega) (by omega)
    (by rw [writeU29bytes_one_tag]; exact hs1)
    (by rw [writeU29bytes_one_tag]; simp; omega)
  rw [writeU29bytes_one_tag] at hI
  simp only [List.length_cons, List.length_nil, Nat.cast_one, Nat.cast_zero,
    zero_add] at hI
  have hD := readDouble_at B st (c + 1) e d hlen hne (by simpa using hs2) (by omega)
  have hmod : (1 : Int).emod 2 = 1 := rfl
  refine ⟨?_, ?_, ?_⟩ <;>
    simp [readDate, hI, hmod, hD] <;> omega

/-- `.assocLoop` at the empty-key terminator `01` stops at once. -/
theorem assocLoop_at (f : Nat) (B : List Nat) (st c e : Int) (ds : DState)
    (hseg : SegAt B c [1]) (he : c + 1 ≤ e) :
    decRun (f + 1) .assocLoop (regLE B st c e) ds =
      (regLE B st (c + 1) e, ds, .unitRes) := by
  simp [decRun, readUTF8_empty_at B st c e ds hseg he]

/-- `readValue` dispatch: marker `0`. -/
theorem decValue_undef (f : Nat) (r r1 : Region) (ds : DState)
    (h : r.readUInt8 = (r1, some 0)) :
    decRun (f + 1) .value r ds = (r1, ds, .val .undef) := by
  simp [decRun, h]

/-- `readValue` dispatch: marker `1`. -/
theorem decValue_null (f : Nat) (r r1 : Region) (ds : DState)
    (h : r.readUInt8 = (r1, some 1)) :
    decRun (f + 1) .value r ds = (r1, ds, .val .null) := by
  simp [decRun, h]

/-- `readValue` dispatch: marker `2`. -/
theorem decValue_false (f : Nat) (r r1 : Region) (ds : DState)
    (h : r.readUInt8 = (r1, some 2)) :
    decRun (f + 1) .value r ds = (r1, ds, .val (.bool false)) := by
  simp [decRun, h]

/-- `readValue` dispatch: marker `3`. -/
theorem decValue_true (f : Nat) (r r1 : Region) (ds : DState)
    (h : r.readUInt8 = (r1, some 3)) :
    decRun (f + 1) .value r ds = (r1, ds, .val (.bool true)) := by
  simp [decRun, h]

/-- `readValue` dispatch: marker `4` (Integer). -/
theorem decValue_int (f : Nat) (r r1 : Region) (ds : DState)
    (h : r.readUInt8 = (r1, some 4)) :
    decRun (f + 1) .value r ds =
      ((readInteger r1 ds).1, (readInteger r1 ds).2.1,
        .val (readInteger r1 ds).2.2) := by
  simp [decRun, h]

/-- `readValue` dispatch: marker `5` (Double). -/
theorem decValue_dbl (f : Nat) (r r1 : Region) (ds : DState)
    (h : r.readUInt8 = (r1, some 5)) :
    decRun (f + 1) .value r ds =
      ((readDoubleV r1 ds).1, (readDoubleV r1 ds).2.1,
        .val (readDoubleV r1 ds).2.2) := by
  simp [decRun, h]

/-- `readValue` dispatch: marker `6` (String). -/
theorem decValue_str (f : Nat) (r r1 : Region) (ds : DState)
    (h : r.readUInt8 = (r1, some 6)) :
    decRun (f + 1) .value r ds =
      ((readUTF8 r1 ds).1, (readUTF8 r1 ds).2.1,
        .val (.str (readUTF8 r1 ds).2.2)) := by
  simp [decRun, h]

/-- `readValue` dispatch: marker `8` (Date). -/
theorem decValue_date (f : Nat) (r r1 : Region) (ds : DState)
    (h : r.readUInt8 = (r1, some 8)) :
    decRun (f + 1) .value r ds =
      ((readDate r1 ds).1, (readDate r1 ds).2.1,
        .val (readDate r1 ds).2.2) := by
  simp [decRun, h]

/-- `readValue` dispatch: marker `9` (Array). -/
theorem decValue_arr (f : Nat) (r r1 : Region) (ds : DState)
    (h : r.readUInt8 = (r1, some 9)) :
    decRun (f + 1) .value r ds = decRun f .array r1 ds := by
  simp [decRun, h]

mutual

/-- The object-free, exactly-representable values of the amended claim:
no `Object`s; integers in the encoder's Integer window `[0, 0x200000)`;
doubles and dates holding eight genuine bytes that are neither NaN nor
the canonical-NaN wire image, and (for doubles) not integral values the
encoder would rewrite into the Integer window; strings and arrays
shorter than `2^20` (so every length tag stays inside `writeU29`'s
lossless range). -/
def GoodValue : Value → Bool
  | .undef => true
  | .null => true
  | .bool _ => true
  | .int i => decide (0 ≤ i) && decide (i < 0x200000)
  | .dbl b =>
    decide (b.length = 8) && b.all (· < 256) && !F64.isNaN b &&
      decide (b ≠ encodedNaN) &&
      (match F64.asInt b with
       | some val => decide (val < 0) || decide (0x200000 ≤ val)
       | none => true)
  | .str t => decide (t.length < 0x100000) && t.all (· < 256)
  | .arr xs => decide (xs.length < 0x100000) && GoodList xs
  | .obj _ _ => false
  | .date ms =>
    decide (ms.length = 8) && ms.all (· < 256) && !F64.isNaN ms &&
      decide (ms ≠ encodedNaN)

/-- All values of a list are good. -/
def GoodList : List Value → Bool
  | [] => true
  | v :: vs => GoodValue v && GoodList vs

end

/-- Every `Value` has positive size. -/
theorem value_sizeOf_pos (v : Value) : 1 ≤ sizeOf v := by
  cases v <;> simp <;> omega

/-- Every value list has positive size. -/
theorem list_sizeOf_pos (xs : List Value) : 1 ≤ sizeOf xs := by
  cases xs <;> simp <;> omega

/-- The serializer half of the round trip: with enough fuel, on a
little-endian host, `writeValue v` appends exactly `out` to the output
buffer and changes nothing else. -/
def SerOutV (v : Value) (out : List Nat) : Prop :=
  ∀ (f : Nat) (s : SState), 5 * sizeOf v ≤ f → s.bigEndian = false →
    serRun f (.value v) s = { s with buf := s.buf ++ out }

/-- The deserializer half: with enough fuel, wherever `out` sits in the
readable region, `readValue` consumes exactly `out`, yields `v`, and
preserves the error state (the reference tables may grow). -/
def DecInV (v : Value) (out : List Nat) : Prop :=
  ∀ (f : Nat) (B : List Nat) (st c e : Int) (ds : DState),
    5 * sizeOf v ≤ f → SegAt B c out → c + out.length ≤ e →
    (decRun f .value (regLE B st c e) ds).1 = regLE B st (c + out.length) e ∧
    (decRun f .value (regLE B st c e) ds).2.1.err = ds.err ∧
    (decRun f .value (regLE B st c e) ds).2.2 = .val v

/-- `v` round-trips: some byte string is both what the encoder emits
for `v` and what the decoder turns back into `v`. -/
def RTV (v : Value) : Prop :=
  ∃ out : List Nat, (∀ b ∈ out, b < 256) ∧ SerOutV v out ∧ DecInV v out

/-- The serializer half for `writeArray`'s element loop. -/
def SerOutL (xs : List Value) (out : List Nat) : Prop :=
  ∀ (f : Nat) (s : SState), 5 * sizeOf xs ≤ f → s.bigEndian = false →
    serRun f (.listLoop xs) s = { s with buf := s.buf ++ out }

/-- The deserializer half for the dense-portion loop. -/
def DecInL (xs : List Value) (out : List Nat) : Prop :=
  ∀ (f : Nat) (B : List Nat) (st c e : Int) (ds : DState),
    5 * sizeOf xs ≤ f → SegAt B c out → c + out.length ≤ e →
    (decRun f (.denseLoop xs.length) (regLE B st c e) ds).1 =
      regLE B st (c + out.length) e ∧
    (decRun f (.denseLoop xs.length) (regLE B st c e) ds).2.1.err = ds.err ∧
    (decRun f (.denseLoop xs.length) (regLE B st c e) ds).2.2 = .vals xs

/-- The element list round-trips. -/
def RTL (xs : List Value) : Prop :=
  ∃ out : List Nat, (∀ b ∈ out, b < 256) ∧ SerOutL xs out ∧ DecInL xs out

/-- A single-marker value (`Undefined`, `Null`, `False`, `True`)
round-trips through its marker byte. -/
theorem rtv_marker (v : Value) (mk : Nat) (hmk : mk < 256)
    (hser : ∀ (f : Nat) (s : SState), serRun (f + 1) (.value v) s = writeU8 mk s)
    (hdec : ∀ (f : Nat) (r r1 : Region) (ds : DState),
      r.readUInt8 = (r1, some mk) → decRun (f + 1) .value r ds = (r1, ds, .val v)) :
    RTV v := by
  refine ⟨[mk], ?_, ?_, ?_⟩
  · intro b hb
    simp only [List.mem_singleton] at hb
    omega
  · intro f s hf hbe
    have hp : 1 ≤ sizeOf v := value_sizeOf_pos v
    obtain ⟨f', rfl⟩ : ∃ f', f = f' + 1 := ⟨f - 1, by omega⟩
    rw [hser, writeU8_emits mk s hmk]
  · intro f B st c e ds hf hseg he
    have hp : 1 ≤ sizeOf v := value_sizeOf_pos v
    obtain ⟨f', rfl⟩ : ∃ f', f = f' + 1 := ⟨f - 1, by omega⟩
    have he1 : c + 1 ≤ e := by simp at he; omega
    have h8 := readUInt8_at B st c e false hseg.1 he1
    rw [segAt_head hseg] at h8
    have hd := hdec f' _ _ ds h8
    refine ⟨?_, ?_, ?_⟩ <;> simp [hd]

/-- `Undefined` round-trips. -/
theorem rtv_undef : RTV .undef :=
  rtv_marker .undef 0 (by omega) (fun f s => by simp [serRun])
    (fun f r r1 ds h => decValue_undef f r r1 ds h)

/-- `Null` round-trips. -/
theorem rtv_null : RTV .null :=
  rtv_marker .null 1 (by omega) (fun f s => by simp [serRun])
    (fun f r r1 ds h => decValue_null f r r1 ds h)

/-- Booleans round-trip. -/
theorem rtv_bool (b : Bool) : RTV (.bool b) := by
  cases b with
  | false =>
    exact rtv_marker (.bool false) 2 (by omega) (fun f s => by simp [serRun])
      (fun f r r1 ds h => decValue_false f r r1 ds h)
  | true =>
    exact rtv_marker (.bool true) 3 (by omega) (fun f s => by simp [serRun])
      (fun f r r1 ds h => decValue_true f r r1 ds h)

/-- Integers in the encoder's window round-trip through marker `04`. -/
theorem rtv_int (i : Int) (h0 : 0 ≤ i) (h1 : i < 0x200000) : RTV (.int i) := by
  refine ⟨4 :: writeU29bytes i, ?_, ?_, ?_⟩
  · intro b hb
    simp only [List.mem_cons] at hb
    rcases hb with rfl | hb
    · omega
    · exact writeU29bytes_lt h0 h1 b hb
  · intro f s hf hbe
    have hp : 1 ≤ sizeOf (Value.int i) := value_sizeOf_pos _
    obtain ⟨f', rfl⟩ : ∃ f', f = f' + 1 := ⟨f - 1, by omega⟩
    have hs : serRun (f' + 1) (.value (.int i)) s = writeNumber (.int i) true s := by
      simp [serRun]
    rw [hs, writeNumber, if_pos ⟨h0, h1⟩, writeU29_emits_marker i s h0 h1]
  · intro f B st c e ds hf hseg he
    have hp : 1 ≤ sizeOf (Value.int i) := value_sizeOf_pos _
    obtain ⟨f', rfl⟩ : ∃ f', f = f' + 1 := ⟨f - 1, by omega⟩
    have hel : ((4 :: writeU29bytes i).length : Int) =
        (writeU29bytes i).length + 1 := by simp
    have he1 : c + 1 ≤ e := by rw [hel] at he; omega
    have h8 := readUInt8_at B st c e false hseg.1 he1
    rw [segAt_head hseg] at h8
    have hd := decValue_int f' _ _ ds h8
    have hri := readInteger_seg B st (c + 1) e ds i h0 h1 (segAt_tail hseg)
      (by rw [hel] at he; omega)
    rw [hd, hri, hel]
    dsimp only
    have harith : c + 1 + ((writeU29bytes i).length : Int) =
        c + (((writeU29bytes i).length : Int) + 1) := by omega
    rw [harith]
    exact ⟨rfl, rfl, rfl⟩

/-- Good doubles round-trip through marker `05`. -/
theorem rtv_dbl (b : List Nat) (hlen : b.length = 8) (hby : ∀ x ∈ b, x < 256)
    (hnan : F64.isNaN b = false) (hne : b ≠ encodedNaN)
    (hint : ∀ val, F64.asInt b = some val → val < 0 ∨ 0x200000 ≤ val) :
    RTV (.dbl b) := by
  refine ⟨5 :: b, ?_, ?_, ?_⟩
  · intro x hx
    simp only [List.mem_cons] at hx
    rcases hx with rfl | hx
    · omega
    · exact hby x hx
  · intro f s hf hbe
    have hp : 1 ≤ sizeOf (Value.dbl b) := value_sizeOf_pos _
    obtain ⟨f', rfl⟩ : ∃ f', f = f' + 1 := ⟨f - 1, by omega⟩
    have hs : serRun (f' + 1) (.value (.dbl b)) s = writeNumber (.dbl b) true s := by
      simp [serRun]
    rw [hs]
    have hw : writeNumber (.dbl b) true s = writeDouble b true s := by
      rw [writeNumber]
      cases hA : F64.asInt b with
      | none => rfl
      | some val =>
        dsimp only
        rcases hint val hA with h | h
        · rw [if_neg (by omega)]
        · rw [if_neg (by omega)]
    rw [hw, writeDouble_emits_marker b s hnan hby hbe]
  · intro f B st c e ds hf hseg he
    have hp : 1 ≤ sizeOf (Value.dbl b) := value_sizeOf_pos _
    obtain ⟨f', rfl⟩ : ∃ f', f = f' + 1 := ⟨f - 1, by omega⟩
    have hel : ((5 :: b).length : Int) = 9 := by simp [hlen]
    have he1 : c + 1 ≤ e := by rw [hel] at he; omega
    have h8 := readUInt8_at B st c e false hseg.1 he1
    rw [segAt_head hseg] at h8
    have hd := decValue_dbl f' _ _ ds h8
    have hrd := readDoubleV_at B st (c + 1) e ds b hlen hne (segAt_tail hseg)
      (by rw [hel] at he; omega)
    rw [hd, hrd, hel]
    dsimp only
    have harith : c + 1 + 8 = c + 9 := by omega
    rw [harith]
    exact ⟨rfl, rfl, rfl⟩

/-- Length of a cons-append byte string, as an integer. -/
theorem int_length_cons_append (a : Nat) (u v : List Nat) :
    (((a :: (u ++ v)).length : Nat) : Int) = (u.length : Int) + v.length + 1 := by
  rw [List.length_cons, List.length_append]
  push_cast
  ring

/-- Good strings round-trip through marker `06`. -/
theorem rtv_str (t : List Nat) (hlen : t.length < 0x100000)
    (hby : ∀ x ∈ t, x < 256) : RTV (.str t) := by
  refine ⟨6 :: (writeU29bytes (2 * t.length + 1) ++ t), ?_, ?_, ?_⟩
  · intro x hx
    simp only [List.mem_cons, List.mem_append] at hx
    rcases hx with rfl | hx | hx
    · omega
    · exact writeU29bytes_lt (by omega) (by omega) x hx
    · exact hby x hx
  · intro f s hf hbe
    have hp : 1 ≤ sizeOf (Value.str t) := value_sizeOf_pos _
    obtain ⟨f', rfl⟩ : ∃ f', f = f' + 1 := ⟨f - 1, by omega⟩
    have hs : serRun (f' + 1) (.value (.str t)) s = writeUTF8 t true s := by
      simp [serRun]
    rw [hs, writeUTF8_emits_marker t s hlen hby]
  · intro f B st c e ds hf hseg he
    have hp : 1 ≤ sizeOf (Value.str t) := value_sizeOf_pos _
    obtain ⟨f', rfl⟩ : ∃ f', f = f' + 1 := ⟨f - 1, by omega⟩
    have hel : ((6 :: (writeU29bytes (2 * t.length + 1) ++ t)).length : Int) =
        (writeU29bytes (2 * t.length + 1)).length + t.length + 1 :=
      int_length_cons_append 6 _ t
    have he1 : c + 1 ≤ e := by rw [hel] at he; omega
    have h8 := readUInt8_at B st c e false hseg.1 he1
    rw [segAt_head hseg] at h8
    have hd := decValue_str f' _ _ ds h8
    have hru := readUTF8_seg B st (c + 1) e ds t hlen (segAt_tail hseg)
      (by rw [hel] at he; omega)
    rw [hd]
    dsimp only
    rw [hru.1, hru.2.1, hru.2.2, hel]
    generalize writeU29bytes (2 * (t.length : Int) + 1) = u
    have harith : c + 1 + (u.length : Int) + t.length =
        c + ((u.length : Int) + t.length + 1) := by
      omega
    rw [harith]
    exact ⟨rfl, rfl, rfl⟩

/-- Good dates round-trip through marker `08`. -/
theorem rtv_date (ms : List Nat) (hlen : ms.length = 8) (hby : ∀ x ∈ ms, x < 256)
    (hnan : F64.isNaN ms = false) (hne : ms ≠ encodedNaN) : RTV (.date ms) := by
  refine ⟨8 :: 1 :: ms, ?_, ?_, ?_⟩
  · intro x hx
    simp only [List.mem_cons] at hx
    rcases hx with rfl | rfl | hx
    · omega
    · omega
    · exact hby x hx
  · intro f s hf hbe
    have hp : 1 ≤ sizeOf (Value.date ms) := value_sizeOf_pos _
    obtain ⟨f', rfl⟩ : ∃ f', f = f' + 1 := ⟨f - 1, by omega⟩
    have hs : serRun (f' + 1) (.value (.date ms)) s = writeDate ms s := by
      simp [serRun]
    rw [hs, writeDate_emits ms s hnan hby hbe]
  · intro f B st c e ds hf hseg he
    have hp : 1 ≤ sizeOf (Value.date ms) := value_sizeOf_pos _
    obtain ⟨f', rfl⟩ : ∃ f', f = f' + 1 := ⟨f - 1, by omega⟩
    have hel : ((8 :: 1 :: ms).length : Int) = 10 := by simp [hlen]
    have he1 : c + 1 ≤ e := by rw [hel] at he; omega
    have h8 := readUInt8_at B st c e false hseg.1 he1
    rw [segAt_head hseg] at h8
    have hd := decValue_date f' _ _ ds h8
    have hrd := readDate_seg B st (c + 1) e ds ms hlen hne (segAt_tail hseg)
      (by rw [hel] at he; omega)
    rw [hd]
    dsimp only
    rw [hrd.1, hrd.2.1, hrd.2.2, hel]
    have harith : c + 1 + 9 = c + 10 := by omega
    rw [harith]
    exact ⟨rfl, rfl, rfl⟩

/-- Length of a byte string of the array shape, as an integer. -/
theorem int_length_cons_append_cons (a b : Nat) (u v : List Nat) :
    (((a :: (u ++ b :: v)).length : Nat) : Int) = (u.length : Int) + v.length + 2 := by
  rw [List.length_cons, List.length_append, List.length_cons]
  push_cast
  ring

/-- `writeUTF8` of the empty string without a marker emits the tag `01`. -/
theorem writeUTF8_nil_plain (s : SState) :
    writeUTF8 [] false s = { s with buf := s.buf ++ [1] } := by
  have h := writeUTF8_emits_plain [] s (by simp) (by simp)
  simpa [writeU29bytes_one_tag] using h

/-- `writeValue` on an array defers to `writeArray`. -/
theorem serValue_arr (f : Nat) (xs : List Value) (s : SState) :
    serRun (f + 1) (.value (.arr xs)) s = serRun f (.array xs) s := rfl

/-- `writeArray` prefix: marker, length tag, associative terminator,
then the element loop. -/
theorem serArray_unfold (f : Nat) (xs : List Value) (s : SState) :
    serRun (f + 1) (.array xs) s =
      serRun f (.listLoop xs)
        (writeUTF8 [] false (writeU29 (2 * (xs.length : Int) + 1) false (writeU8 9 s))) :=
  rfl

/-- The element loop stops on the empty list. -/
theorem serListLoop_nil (f : Nat) (s : SState) :
    serRun (f + 1) (.listLoop []) s = s := rfl

/-- The element loop serializes the head, then the tail. -/
theorem serListLoop_cons (f : Nat) (v : Value) (vs : List Value) (s : SState) :
    serRun (f + 1) (.listLoop (v :: vs)) s =
      serRun f (.listLoop vs) (serRun f (.value v) s) := rfl

/-- `denseLoop 0` stops at once. -/
theorem denseLoop_zero (f : Nat) (r : Region) (ds : DState) :
    decRun (f + 1) (.denseLoop 0) r ds = (r, ds, .vals []) := rfl

/-- One step of the dense-portion loop, in projection form. -/
theorem denseLoop_succ (f k : Nat) (r : Region) (ds : DState) :
    decRun (f + 1) (.denseLoop (k + 1)) r ds =
      ((decRun f (.denseLoop k) (decRun f .value r ds).1 (decRun f .value r ds).2.1).1,
       (decRun f (.denseLoop k) (decRun f .value r ds).1 (decRun f .value r ds).2.1).2.1,
       .vals ((decRun f .value r ds).2.2.value ::
         (decRun f (.denseLoop k) (decRun f .value r ds).1
           (decRun f .value r ds).2.1).2.2.list)) := rfl

/-- `readArray` at an odd (inline) tag: record the reference slot
first, then parse under the tagged length. -/
theorem decArray_inline (f : Nat) (r r1 : Region) (ds : DState) (n : Int)
    (hn : r.readInt29 = (r1, some n)) (hodd : n.emod 2 = 1) :
    decRun (f + 1) .array r ds =
      decRun f (.arrayWithLength (n.fdiv 2)) r1
        { ds with objRefs := ds.objRefs ++ [⟨r1.copy (-1), n.fdiv 2⟩] } := by
  simp [decRun, hn, hodd]

/-- `readArrayWithLength`, in projection form. -/
theorem decArrayWithLength_unfold (f : Nat) (len : Int) (r : Region) (ds : DState) :
    decRun (f + 1) (.arrayWithLength len) r ds =
      ((decRun f (.denseLoop len.toNat) (decRun f .assocLoop r ds).1
          (decRun f .assocLoop r ds).2.1).1,
       (decRun f (.denseLoop len.toNat) (decRun f .assocLoop r ds).1
          (decRun f .assocLoop r ds).2.1).2.1,
       .val (.arr (decRun f (.denseLoop len.toNat) (decRun f .assocLoop r ds).1
          (decRun f .assocLoop r ds).2.1).2.2.list)) := rfl

/-- The empty element list round-trips through no bytes at all. -/
theorem rtl_nil : RTL [] := by
  refine ⟨[], ?_, ?_, ?_⟩
  · intro b hb
    simp at hb
  · intro f s hf hbe
    have hp : 1 ≤ sizeOf ([] : List Value) := list_sizeOf_pos _
    obtain ⟨f', rfl⟩ : ∃ f', f = f' + 1 := ⟨f - 1, by omega⟩
    rw [serListLoop_nil]
    simp
  · intro f B st c e ds hf hseg he
    have hp : 1 ≤ sizeOf ([] : List Value) := list_sizeOf_pos _
    obtain ⟨f', rfl⟩ : ∃ f', f = f' + 1 := ⟨f - 1, by omega⟩
    refine ⟨?_, ?_, ?_⟩ <;> simp [denseLoop_zero]

/-- Round-tripping is preserved by consing a round-tripping head onto a
round-tripping tail. -/
theorem rtl_cons (v : Value) (vs : List Value)
    (hv : RTV v) (hvs : RTL vs) : RTL (v :: vs) := by
  obtain ⟨ov, hbv, hsv, hdv⟩ := hv
  obtain ⟨ol, hbl, hsl, hdl⟩ := hvs
  refine ⟨ov ++ ol, ?_, ?_, ?_⟩
  · intro b hb
    rcases List.mem_append.1 hb with h | h
    · exact hbv b h
    · exact hbl b h
  · intro f s hf hbe
    have h1 : 1 ≤ sizeOf v := value_sizeOf_pos v
    have h2 : 1 ≤ sizeOf vs := list_sizeOf_pos vs
    have hsz : sizeOf (v :: vs) = 1 + sizeOf v + sizeOf vs := by simp
    rw [hsz] at hf
    obtain ⟨f', rfl⟩ : ∃ f', f = f' + 1 := ⟨f - 1, by omega⟩
    rw [serListLoop_cons, hsv f' s (by omega) hbe,
      hsl f' { s with buf := s.buf ++ ov } (by omega) hbe]
    dsimp only
    rw [List.append_assoc]
  · intro f B st c e ds hf hseg he
    have h1 : 1 ≤ sizeOf v := value_sizeOf_pos v
    have h2 : 1 ≤ sizeOf vs := list_sizeOf_pos vs
    have hsz : sizeOf (v :: vs) = 1 + sizeOf v + sizeOf vs := by simp
    rw [hsz] at hf
    obtain ⟨f', rfl⟩ : ∃ f', f = f' + 1 := ⟨f - 1, by omega⟩
    obtain ⟨hs1, hs2⟩ := segAt_append hseg
    have hlel : ((ov ++ ol).length : Int) = (ov.length : Int) + ol.length := by
      push_cast [List.length_append]
      ring
    rw [hlel] at he
    have hd1 := hdv f' B st c e ds (by omega) hs1 (by omega)
    have hd2 := hdl f' B st (c + ov.length) e
      ((decRun f' .value (regLE B st c e) ds).2.1) (by omega) hs2 (by omega)
    simp only [List.length_cons]
    rw [denseLoop_succ, hd1.1, hd1.2.2, hd2.1, hd2.2.2]
    refine ⟨?_, ?_, ?_⟩
    · rw [hlel]
      have harith : c + (ov.length : Int) + ol.length =
          c + ((ov.length : Int) + ol.length) := by ring
      rw [harith]
    · rw [hd2.2.1, hd1.2.1]
    · rfl

/-- Arrays of round-tripping elements: byte bound, serializer shape,
deserializer behaviour, all with the explicit wire layout `09`, the
length tag, the associative terminator `01`, then the elements. -/
theorem rtv_arr_parts (xs : List Value) (hlen : xs.length < 0x100000)
    (outL : List Nat) (hbL : ∀ b ∈ outL, b < 256)
    (hsL : SerOutL xs outL) (hdL : DecInL xs outL) :
    (∀ b ∈ 9 :: (writeU29bytes (2 * xs.length + 1) ++ 1 :: outL), b < 256) ∧
    SerOutV (.arr xs) (9 :: (writeU29bytes (2 * xs.length + 1) ++ 1 :: outL)) ∧
    DecInV (.arr xs) (9 :: (writeU29bytes (2 * xs.length + 1) ++ 1 :: outL)) := by
  refine ⟨?_, ?_, ?_⟩
  · intro x hx
    simp only [List.mem_cons, List.mem_append] at hx
    rcases hx with rfl | hx | rfl | hx
    · omega
    · exact writeU29bytes_lt (by omega) (by omega) x hx
    · omega
    · exact hbL x hx
  · intro f s hf hbe
    have hsz : sizeOf (Value.arr xs) = 1 + sizeOf xs := by simp
    rw [hsz] at hf
    have h2 : 1 ≤ sizeOf xs := list_sizeOf_pos xs
    obtain ⟨f1, rfl⟩ : ∃ g, f = g + 1 := ⟨f - 1, by omega⟩
    obtain ⟨f2, rfl⟩ : ∃ g, f1 = g + 1 := ⟨f1 - 1, by omega⟩
    have hstate : writeUTF8 [] false
        (writeU29 (2 * (xs.length : Int) + 1) false (writeU8 9 s)) =
        { s with buf := s.buf ++ [9] ++ writeU29bytes (2 * (xs.length : Int) + 1) ++ [1] } := by
      rw [writeU8_emits 9 s (by omega),
        writeU29_emits_plain _ _ (by omega) (by omega), writeUTF8_nil_plain]
    rw [serValue_arr, serArray_unfold, hstate,
      hsL f2 { s with buf := s.buf ++ [9] ++ writeU29bytes (2 * (xs.length : Int) + 1) ++ [1] }
        (by omega) hbe]
    dsimp only
    generalize writeU29bytes (2 * (xs.length : Int) + 1) = u
    have e1 : (((s.buf ++ [9]) ++ u) ++ [1]) ++ outL =
        s.buf ++ ([9] ++ (u ++ ([1] ++ outL))) := by
      rw [List.append_assoc, List.append_assoc, List.append_assoc]
    rw [e1]
    rfl
  · intro f B st c e ds hf hseg he
    have hsz : sizeOf (Value.arr xs) = 1 + sizeOf xs := by simp
    rw [hsz] at hf
    have h2 : 1 ≤ sizeOf xs := list_sizeOf_pos xs
    obtain ⟨f1, rfl⟩ : ∃ g, f = g + 1 := ⟨f - 1, by omega⟩
    obtain ⟨f2, rfl⟩ : ∃ g, f1 = g + 1 := ⟨f1 - 1, by omega⟩
    obtain ⟨f3, rfl⟩ : ∃ g, f2 = g + 1 := ⟨f2 - 1, by omega⟩
    obtain ⟨f4, rfl⟩ : ∃ g, f3 = g + 1 := ⟨f3 - 1, by omega⟩
    have hel : ((9 :: (writeU29bytes (2 * xs.length + 1) ++ 1 :: outL)).length : Int) =
        (writeU29bytes (2 * xs.length + 1)).length + outL.length + 2 :=
      int_length_cons_append_cons 9 1 _ outL
    rw [hel] at he
    have he1 : c + 1 ≤ e := by omega
    have h9 := readUInt8_at B st c e false hseg.1 he1
    rw [segAt_head hseg] at h9
    have hT := segAt_tail hseg
    obtain ⟨hsW, hsR⟩ := segAt_append hT
    have hs1 : SegAt B (c + 1 + ((writeU29bytes (2 * xs.length + 1)).length : Int)) [1] :=
      (@segAt_append B (c + 1 + ((writeU29bytes (2 * xs.length + 1)).length : Int))
        [1] outL (by simpa using hsR)).1
    have hsL2 : SegAt B (c + 1 + ((writeU29bytes (2 * xs.length + 1)).length : Int) + 1)
        outL := segAt_tail hsR
    have hI := readInt29_seg B st (c + 1) e false (2 * xs.length + 1)
      (by omega) (by omega) hsW (by omega)
    have hodd : (2 * (xs.length : Int) + 1).emod 2 = 1 := by
      have hm : (2 * (xs.length : Int) + 1) % 2 = 1 := by omega
      exact hm
    have hfd : (2 * (xs.length : Int) + 1).fdiv 2 = xs.length := by
      rw [Int.fdiv_eq_ediv _ (by omega)]
      omega
    have hA := decArray_inline (f4 + 1 + 1) _ _ ds _ hI hodd
    rw [hfd] at hA
    have hAs := assocLoop_at f4 B st
      (c + 1 + ((writeU29bytes (2 * xs.length + 1)).length : Int)) e
      { ds with objRefs := ds.objRefs ++
        [⟨(regLE B st (c + 1 + ((writeU29bytes (2 * xs.length + 1)).length : Int)) e).copy
          (-1), (xs.length : Int)⟩] } hs1 (by omega)
    have hD := hdL (f4 + 1) B st
      (c + 1 + ((writeU29bytes (2 * xs.length + 1)).length : Int) + 1) e
      { ds with objRefs := ds.objRefs ++
        [⟨(regLE B st (c + 1 + ((writeU29bytes (2 * xs.length + 1)).length : Int)) e).copy
          (-1), (xs.length : Int)⟩] } (by omega) hsL2 (by omega)
    rw [decValue_arr (f4 + 1 + 1 + 1) _ _ ds h9, hA, decArrayWithLength_unfold, hAs]
    dsimp only
    rw [Int.toNat_natCast, hD.1, hD.2.2, hel]
    refine ⟨?_, ?_, ?_⟩
    · generalize writeU29bytes (2 * (xs.length : Int) + 1) = u
      have harith : c + 1 + (u.length : Int) + 1 + outL.length =
          c + ((u.length : Int) + outL.length + 2) := by ring
      rw [harith]
    · rw [hD.2.1]
    · rfl

/-- Arrays of round-tripping elements round-trip through marker `09`. -/
theorem rtv_arr (xs : List Value) (hlen : xs.length < 0x100000)
    (hrtl : RTL xs) : RTV (.arr xs) := by
  obtain ⟨outL, hbL, hsL, hdL⟩ := hrtl
  obtain ⟨hb, hs, hd⟩ := rtv_arr_parts xs hlen outL hbL hsL hdL
  exact ⟨_, hb, hs, hd⟩

/-- Every good value and every good element list round-trips (strong
induction on the structural size). -/
theorem rt_ind (N : Nat) :
    (∀ v : Value, sizeOf v ≤ N → GoodValue v = true → RTV v) ∧
    (∀ xs : List Value, sizeOf xs ≤ N → GoodList xs = true → RTL xs) := by
  induction N using Nat.strong_induction_on with
  | _ N ih =>
    constructor
    · intro v hv hg
      cases v with
      | undef => exact rtv_undef
      | null => exact rtv_null
      | bool b => exact rtv_bool b
      | int i =>
        simp [GoodValue] at hg
        exact rtv_int i hg.1 hg.2
      | dbl b =>
        simp only [GoodValue, Bool.and_eq_true, decide_eq_true_eq,
          Bool.not_eq_true', List.all_eq_true] at hg
        obtain ⟨⟨⟨⟨h1, h2⟩, h3⟩, h4⟩, h5⟩ := hg
        refine rtv_dbl b h1 h2 h3 h4 ?_
        intro val hval
        rw [hval] at h5
        simp at h5
        omega
      | str t =>
        simp [GoodValue] at hg
        exact rtv_str t hg.1 hg.2
      | arr xs =>
        simp [GoodValue] at hg
        have hsz : sizeOf (Value.arr xs) = 1 + sizeOf xs := by simp
        have hp : 1 ≤ sizeOf xs := list_sizeOf_pos xs
        refine rtv_arr xs hg.1 ?_
        exact (ih (sizeOf xs) (by omega)).2 xs le_rfl hg.2
      | obj id props =>
        simp [GoodValue] at hg
      | date ms =>
        simp only [GoodValue, Bool.and_eq_true, decide_eq_true_eq,
          Bool.not_eq_true', List.all_eq_true] at hg
        obtain ⟨⟨⟨h1, h2⟩, h3⟩, h4⟩ := hg
        exact rtv_date ms h1 h2 h3 h4
    · intro xs hxs hg
      cases xs with
      | nil => exact rtl_nil
      | cons v vs =>
        simp [GoodList] at hg
        have hsz : sizeOf (v :: vs) = 1 + sizeOf v + sizeOf vs := by simp
        have h1 : 1 ≤ sizeOf v := value_sizeOf_pos v
        have h2 : 1 ≤ sizeOf vs := list_sizeOf_pos vs
        refine rtl_cons v vs ?_ ?_
        · exact (ih (sizeOf v) (by omega)).1 v le_rfl hg.1
        · exact (ih (sizeOf vs) (by omega)).2 vs le_rfl hg.2

/-- Every good value round-trips. -/
theorem goodValue_rtv (v : Value) (hg : GoodValue v = true) : RTV v :=
  (rt_ind (sizeOf v)).1 v le_rfl hg

/-- Every good element list round-trips. -/
theorem goodList_rtl (xs : List Value) (hg : GoodList xs = true) : RTL xs :=
  (rt_ind (sizeOf xs)).2 xs le_rfl hg

/-- `Deserializer::Run`, in projection form. -/
theorem deserialize_proj (f : Nat) (p : List Nat) :
    deserialize f false p =
      ((decRun f .value (mkReadBuffer p false) initD).2.2.value,
       (decRun f .value (mkReadBuffer p false) initD).1.consumed,
       (decRun f .value (mkReadBuffer p false) initD).2.1) := rfl

/-- The read buffer over a byte-valued payload is the payload plus the
trailing NUL, as a little-endian region. -/
theorem mkReadBuffer_lt (p : List Nat) (h : ∀ b ∈ p, b < 256) :
    mkReadBuffer p false = regLE (p ++ [0]) 0 0 ((p.length : Int) + 1) := by
  simp only [mkReadBuffer]
  rw [map_mod_eq_self h]

/-- A payload is a segment of its own read buffer. -/
theorem segAt_self (p : List Nat) : SegAt (p ++ [0]) 0 p := by
  refine ⟨le_refl 0, ?_⟩
  have h := List.take_left p [0]
  simpa using h

set_option maxRecDepth 8000 in
/-- C9 counterexample: the subnormal double whose big-endian image is
`00 00 00 00 00 00 F8 7F` is not NaN, so the encoder copies its bytes to
the wire — where they coincide with the canonical-NaN image the decoder
special-cases — and the decode of the encode is the quiet NaN, not the
original value, with no error raised on either side. -/
theorem c9_counterexample_nan_aliasing :
    (serialize 4 false (.arr [.dbl [0, 0, 0, 0, 0, 0, 0xF8, 0x7F]])).buf =
      [9, 3, 1, 5, 0, 0, 0, 0, 0, 0, 0xF8, 0x7F] ∧
    (serialize 4 false (.arr [.dbl [0, 0, 0, 0, 0, 0, 0xF8, 0x7F]])).err = false ∧
    (deserialize 8 false [9, 3, 1, 5, 0, 0, 0, 0, 0, 0, 0xF8, 0x7F]).1 =
      .arr [.dbl Region.quietNaN] ∧
    (deserialize 8 false [9, 3, 1, 5, 0, 0, 0, 0, 0, 0, 0xF8, 0x7F]).2.2.err = none ∧
    Value.arr [.dbl Region.quietNaN] ≠
      Value.arr [.dbl [0, 0, 0, 0, 0, 0, 0xF8, 0x7F]] := by
  refine ⟨rfl, rfl, rfl, rfl, ?_⟩
  simp [Region.quietNaN]

/-- C9 (amended): for every element list of good values — no objects,
integers in the Integer window, doubles and dates that are not NaN and
do not alias the canonical-NaN wire image, doubles not integral into
the Integer window, strings and arrays shorter than `2^20` — the
encoder emits the `09` marker, the U29 length tag `(len << 1) | 1`, the
empty-string associative terminator `01`, then the elements in order,
without error; and decoding that byte string returns exactly the same
array, consuming the whole payload, without error. -/
theorem c9_array_roundtrip_good (f : Nat) (xs : List Value)
    (hg : GoodValue (.arr xs) = true) (hf : 5 * sizeOf (Value.arr xs) ≤ f) :
    (∃ elems : List Nat, (serialize f false (.arr xs)).buf =
      9 :: (writeU29bytes (2 * xs.length + 1) ++ 1 :: elems)) ∧
    (serialize f false (.arr xs)).err = false ∧
    (deserialize f false (serialize f false (.arr xs)).buf).1 = .arr xs ∧
    (deserialize f false (serialize f false (.arr xs)).buf).2.1 =
      (((serialize f false (.arr xs)).buf.length : Nat) : Int) ∧
    (deserialize f false (serialize f false (.arr xs)).buf).2.2.err = none := by
  have hg' := hg
  simp [GoodValue] at hg'
  obtain ⟨outL, hbL, hsL, hdL⟩ := goodList_rtl xs hg'.2
  obtain ⟨hbAll, hser, hdec⟩ := rtv_arr_parts xs hg'.1 outL hbL hsL hdL
  have hS : serialize f false (.arr xs) =
      { initS false with buf := (initS false).buf ++
          (9 :: (writeU29bytes (2 * xs.length + 1) ++ 1 :: outL)) } :=
    hser f (initS false) hf rfl
  have hbuf : (serialize f false (.arr xs)).buf =
      9 :: (writeU29bytes (2 * xs.length + 1) ++ 1 :: outL) := by
    rw [hS]
    rfl
  have hr0 := mkReadBuffer_lt _ hbAll
  have hd := hdec f ((9 :: (writeU29bytes (2 * xs.length + 1) ++ 1 :: outL)) ++ [0])
    0 0 (((9 :: (writeU29bytes (2 * xs.length + 1) ++ 1 :: outL)).length : Int) + 1)
    initD hf (segAt_self _) (by omega)
  refine ⟨⟨outL, hbuf⟩, ?_, ?_, ?_, ?_⟩
  · rw [hS]
    rfl
  · rw [hbuf, deserialize_proj, hr0]
    dsimp only
    rw [hd.2.2]
    rfl
  · rw [hbuf, deserialize_proj, hr0]
    dsimp only
    rw [hd.1]
    generalize (9 :: (writeU29bytes (2 * (xs.length : Int) + 1) ++ 1 :: outL) : List Nat) = p
    dsimp only [Region.consumed]
    omega
  · rw [hbuf, deserialize_proj, hr0]
    dsimp only
    rw [hd.2.1]
    rfl

/-- A concrete instance of the amended round trip: the two-element good
array `[Null, 5]` satisfies both hypotheses and decodes back to itself. -/
theorem c9_roundtrip_witness :
    GoodValue (Value.arr [Value.null, Value.int 5]) = true ∧
    5 * sizeOf (Value.arr [Value.null, Value.int 5]) ≤ 100 ∧
    (deserialize 100 false
        (serialize 100 false (Value.arr [Value.null, Value.int 5])).buf).1 =
      Value.arr [Value.null, Value.int 5] :=
  ⟨by decide, by decide,
    (c9_array_roundtrip_good 100 [Value.null, Value.int 5]
      (by decide) (by decide)).2.2.1⟩

/-! ## Claim C10: back-reference resolution re-runs the interning
machinery

Resolving an object back-reference re-parses the captured region with
`readObjectWithFlag`, which re-reads the class name with `readUTF8`
(interning it again) and re-appends the trait descriptor, so the
reference tables end up with duplicate entries. -/

/-- C10: decoding `Array([o, backref(o)])` — the back-reference index 1
pointing at the object's slot — succeeds and leaves *duplicate* entries
in both `strRefs_` (the class name `"Object"`, interned once per parse)
and `traitRefs_` (the dynamic/no-sealed-props descriptor, appended once
per parse): back-reference resolution does not leave the decoder's
tables unchanged. -/
theorem c10_backref_reparse_duplicates_tables :
    (deserialize 16 false
        [0x09, 0x05, 0x01, 0x0A, 0x0B, 0x0D, 0x4F, 0x62, 0x6A, 0x65, 0x63, 0x74,
          0x01, 0x0A, 0x02]).1 = .arr [.obj 0 [], .obj 0 []] ∧
    (deserialize 16 false
        [0x09, 0x05, 0x01, 0x0A, 0x0B, 0x0D, 0x4F, 0x62, 0x6A, 0x65, 0x63, 0x74,
          0x01, 0x0A, 0x02]).2.2.err = none ∧
    (deserialize 16 false
        [0x09, 0x05, 0x01, 0x0A, 0x0B, 0x0D, 0x4F, 0x62, 0x6A, 0x65, 0x63, 0x74,
          0x01, 0x0A, 0x02]).2.2.strRefs =
      [{ bytes := [0x09, 0x05, 0x01, 0x0A, 0x0B, 0x0D, 0x4F, 0x62, 0x6A, 0x65, 0x63,
            0x74, 0x01, 0x0A, 0x02, 0x00],
         start := 0, curr := 6, endPos := 12, bigEndian := false },
       { bytes := [0x09, 0x05, 0x01, 0x0A, 0x0B, 0x0D, 0x4F, 0x62, 0x6A, 0x65, 0x63,
            0x74, 0x01, 0x0A, 0x02, 0x00],
         start := 0, curr := 6, endPos := 12, bigEndian := false }] ∧
    (deserialize 16 false
        [0x09, 0x05, 0x01, 0x0A, 0x0B, 0x0D, 0x4F, 0x62, 0x6A, 0x65, 0x63, 0x74,
          0x01, 0x0A, 0x02]).2.2.traitRefs =
      [{ dynamic := true, props := [] }, { dynamic := true, props := [] }] := by
  refine ⟨rfl, rfl, rfl, rfl⟩

end AMFCC
